import Mathlib

/-!
# Verification of the leeforge/schema CLI installation engine

Shallow embedding of the resource-installer engine of the `leeforge/schema`
repository: the root locator (`findRepoRoot`, `findCliRoot`), the assistant
detector (`detectAIType`, `ensureAIDirectory`), the resource catalog (static
lists and the dynamic `scanAvailableSkills` / `scanAvailableRules`), the copy
engine (`copySkills`, `copyRules`, `installResources`) and the install
orchestrator's per-assistant loop (`installCommandLoop`).

The filesystem is modelled as a finite map from paths (lists of segments) to
file contents plus a set of explicitly created directories; a path "exists"
when it is a file, a directory, or an ancestor of either.  Filesystem
operations that may throw (`mkdir`, `cp`) are modelled as fallible operations
that fail exactly on the paths of a caller-supplied failure set `errPaths`
(modelling permission errors and similar I/O faults); failures are atomic.
Logged warnings and errors are accumulated as structured `LogEntry` values.
-/

namespace LeeforgeSchema

/-- A filesystem path, as the list of its segments from the root. -/
abbrev Path := List String

/-- Result of a fallible filesystem operation (`mkdir`, `cp`):
either success with a value, or a thrown error. -/
inductive Res (α : Type) where
  | ok (val : α)
  | error
deriving DecidableEq, Repr

/-- `true` when the operation threw. -/
def Res.isError {α : Type} : Res α → Bool
  | .ok _ => false
  | .error => true

/-- Two paths touch when one is a prefix of the other, i.e. when the
subtree rooted at one contains the other path. -/
def touches (p q : Path) : Bool := p.isPrefixOf q || q.isPrefixOf p

/-! ## String helpers (JS `startsWith`, `endsWith`, `includes`, sort order) -/

/-- `s.startsWith('.')` from JS, on the character list. -/
def startsWithDot (s : String) : Bool :=
  match s.toList with
  | [] => false
  | c :: _ => c == '.'

/-- Substring containment on character lists (JS `String.prototype.includes`). -/
def isSubList (pat : List Char) : List Char → Bool
  | [] => pat.isEmpty
  | c :: rest => pat.isPrefixOf (c :: rest) || isSubList pat rest

/-- JS `haystack.includes(needle)`. -/
def strContains (haystack needle : String) : Bool :=
  isSubList needle.toList haystack.toList

/-- JS `s.endsWith(suffix)`. -/
def strEndsWith (s suffix : String) : Bool :=
  suffix.toList.isSuffixOf s.toList

/-- Strip a final `.md` (three characters) from a name, as the
`replace(/\.md$/, '')` in the rules scan does on names that end in `.md`. -/
def stripMdSuffix (s : String) : String :=
  String.mk (s.toList.take (s.toList.length - 3))

/-- Lexicographic order on character lists by code point, the order JS
`Array.prototype.sort()` uses for ASCII names. -/
def lexLe : List Char → List Char → Bool
  | [], _ => true
  | _ :: _, [] => false
  | a :: as, b :: bs =>
    if a.toNat < b.toNat then true
    else if b.toNat < a.toNat then false
    else lexLe as bs

/-- String order used by the dynamic catalog's `.sort()`. -/
def strLe (a b : String) : Bool := lexLe a.toList b.toList

/-- `.sort()` on a list of names. -/
def sortNames (l : List String) : List String :=
  List.insertionSort (fun a b => strLe a b = true) l

/-! ## Filesystem model -/

/-- A filesystem: a finite map from file paths to contents, and a list of
explicitly created directories.  A path exists when it is a file, an
explicitly created directory, or an ancestor of either. -/
structure FS where
  files : List (Path × String)
  dirs : List Path
deriving DecidableEq, Repr

/-- There is a regular file exactly at `p`. -/
def FS.isFile (fs : FS) (p : Path) : Bool :=
  fs.files.any (fun e => e.1 == p)

/-- Content of the file at `p`, if any. -/
def FS.lookupFile (fs : FS) (p : Path) : Option String :=
  (fs.files.find? (fun e => e.1 == p)).map (·.2)

/-- Node's `existsSync`: the path is a file, a directory, or an ancestor
of an existing entry. -/
def existsSync (fs : FS) (p : Path) : Bool :=
  fs.files.any (fun e => p.isPrefixOf e.1) || fs.dirs.any (fun d => p.isPrefixOf d)

/-- `p` is a directory: an explicitly created one (or an ancestor of one),
or a proper ancestor of a file. -/
def FS.isDirAt (fs : FS) (p : Path) : Bool :=
  fs.dirs.any (fun d => p.isPrefixOf d) ||
    fs.files.any (fun e => p.isPrefixOf e.1 && !(e.1 == p))

/-- Write (create or overwrite) the file at `p`. -/
def FS.putFile (fs : FS) (p : Path) (content : String) : FS :=
  ⟨(p, content) :: fs.files.filter (fun e => !(e.1 == p)), fs.dirs⟩

/-- Record a directory at `p`. -/
def FS.addDir (fs : FS) (p : Path) : FS :=
  ⟨fs.files, p :: fs.dirs⟩

/-- The ancestors of `p` (and `p` itself) that `mkdir -p` would have to
create: the nonempty prefixes of `p` that do not exist yet. -/
def mkdirMissing (fs : FS) (p : Path) : List Path :=
  p.inits.filter (fun q => !(q == ([] : Path)) && !(existsSync fs q))

/-- Node's `mkdir(p, { recursive: true })`: create every missing ancestor of
`p` and `p` itself.  Fails (throws) exactly when one of the directories it
would have to create is in the failure set; failures are atomic. -/
def mkdirRec (errPaths : List Path) (fs : FS) (p : Path) : Res FS :=
  if (mkdirMissing fs p).any (fun q => errPaths.contains q) then .error
  else .ok ⟨fs.files, mkdirMissing fs p ++ fs.dirs⟩

/-! ## The copy primitives (Node `fs.cp`) -/

/-- The exclusion filter passed to the recursive skill copy in
`copySkills`: drop entries whose source path contains `node_modules` or
`.DS_Store` or ends with `.local.json`. -/
def cpFilter (p : Path) : Bool :=
  let s := p.foldl (fun acc seg => acc ++ "/" ++ seg) ""
  !(strContains s "node_modules") && !(strContains s ".DS_Store") &&
    !(strEndsWith s ".local.json")

/-- A file at source path `q` inside the copied tree rooted at `src` is
copied when every visited entry from the root `src` down to `q` passes
`cpFilter`: `fs.cp` consults the filter on the root source too, and an
excluded directory prunes its whole subtree. -/
def copyAllowed (src q : Path) : Bool :=
  (q.inits.filter (fun r => src.isPrefixOf r)).all cpFilter

/-- The files of the subtree rooted at `src` that the recursive copy
visits and the filter admits. -/
def cpDirEntries (fs : FS) (src : Path) : List (Path × String) :=
  fs.files.filter (fun e => src.isPrefixOf e.1 && !(e.1 == src) && copyAllowed src e.1)

/-- Copy one admitted file of the source subtree to its destination,
overwriting only when `force` is set. -/
def cpDirStep (dest : Path) (srcLen : Nat) (force : Bool) (acc : FS) (e : Path × String) : FS :=
  let d := dest ++ e.1.drop srcLen
  if !force && acc.isFile d then acc else acc.putFile d e.2

/-- `cp(src, dest, { recursive: true, force, filter })` on a directory.
Fails when the destination is in the failure set, or — as Node's
`checkPaths` does with `ERR_FS_CP_DIR_TO_NON_DIR` — when the destination
already exists as a regular file.  When the filter rejects the root
source, the call resolves without copying anything and without creating
the destination.  Otherwise it creates the destination directory and
copies every file of the source subtree the filter admits, overwriting
only when `force` is set.  Failures are atomic. -/
def cpDir (errPaths : List Path) (force : Bool) (fs : FS) (src dest : Path) : Res FS :=
  if errPaths.contains dest then .error
  else if fs.isFile dest then .error
  else if cpFilter src then
    .ok ((cpDirEntries fs src).foldl (cpDirStep dest src.length force) (fs.addDir dest))
  else .ok fs

/-- `cp(src, dest, { force })` on a single file: fails when the source is
not a regular file (e.g. `EISDIR`), when the destination is in the failure
set, or — Node's `ERR_FS_CP_NON_DIR_TO_DIR` — when the destination exists
as a directory; with `force` unset an existing destination file is left
alone. -/
def cpFile (errPaths : List Path) (force : Bool) (fs : FS) (src dest : Path) : Res FS :=
  match fs.lookupFile src with
  | none => .error
  | some content =>
    if errPaths.contains dest then .error
    else if fs.isDirAt dest then .error
    else if !force && fs.isFile dest then .ok fs
    else .ok (fs.putFile dest content)

/-! ## Data model (`src/cli/src/types/index.ts`) -/

/-- Concrete AI assistant types (`Exclude<AIType, 'all'>`). -/
inductive AITypeC where
  | claude | cursor | windsurf | cline
deriving DecidableEq, Repr

/-- `AIType`, including the `'all'` pseudo-value. -/
inductive AIType where
  | claude | cursor | windsurf | cline | all
deriving DecidableEq, Repr

/-- Inclusion of the concrete types into `AIType`. -/
def AITypeC.toAIType : AITypeC → AIType
  | .claude => .claude
  | .cursor => .cursor
  | .windsurf => .windsurf
  | .cline => .cline

/-- `ResourceType`. -/
inductive ResourceType where
  | skill | rule | both
deriving DecidableEq, Repr

/-- `AI_DIRECTORIES`. -/
def AI_DIRECTORIES : AITypeC → String
  | .claude => ".claude"
  | .cursor => ".cursor"
  | .windsurf => ".windsurf"
  | .cline => ".cline"

/-- Iteration order of `Object.entries(AI_DIRECTORIES)` (insertion order). -/
def AI_DIRECTORY_ORDER : List AITypeC := [.claude, .cursor, .windsurf, .cline]

/-- `SKILLS_MAPPING`, with the mapped string `".{ai}/skills"` split into
path segments. -/
def SKILLS_MAPPING (aiType : AITypeC) : Path := [AI_DIRECTORIES aiType, "skills"]

/-- `RULES_MAPPING`, with the mapped string `".{ai}/rules"` split into
path segments. -/
def RULES_MAPPING (aiType : AITypeC) : Path := [AI_DIRECTORIES aiType, "rules"]

/-- `AVAILABLE_SKILLS`. -/
def AVAILABLE_SKILLS : List String :=
  ["schema", "code-detector", "form-developer", "table-developer", "backend-developer"]

/-- `AVAILABLE_RULES`. -/
def AVAILABLE_RULES : List String := ["schema-rules"]

/-! ## Console output of the engine, as structured entries -/

/-- Which resource kind a log line is about. -/
inductive RKind where
  | skill | rule
deriving DecidableEq, Repr

/-- The warnings and errors the engine prints. -/
inductive LogEntry where
  /-- `⚠️  Skill/Rule '<name>' not found at <sourcePath>` (with the repo root). -/
  | notFound (kind : RKind) (name : String) (sourcePath : Path) (repoRoot : Path)
  /-- `⚠️  Skill/Rule '<name>' already exists, use --force to overwrite`. -/
  | alreadyExists (kind : RKind) (name : String)
  /-- `❌ Failed to copy skill/rule '<name>'`. -/
  | copyFailed (kind : RKind) (name : String)
  /-- `⚠️  Skills/Rules directory not found: <dir>`. -/
  | scanMissing (kind : RKind) (dir : Path)
deriving DecidableEq, Repr

/-! ## Root locator (`findRepoRoot` in `copy.ts`, `findCliRoot` in the
dynamic variant) -/

/-- One upward-walking search: starting at `cur` with the given fuel
(remaining depth budget `maxDepth - depth`), return the first directory
satisfying `marker`, stopping early when the parent equals the current
directory (filesystem root), and returning `none` when the budget is
exhausted. -/
def locateRootAux (marker : Path → Bool) (cur : Path) : Nat → Option Path
  | 0 => none
  | fuel + 1 =>
    if marker cur then some cur
    else
      let parent := cur.dropLast
      if parent == cur then none
      else locateRootAux marker parent fuel

/-- The markers `findRepoRoot` checks: a `skills` and a `.claude`
subdirectory. -/
def hasRepoMarkers (fs : FS) (dir : Path) : Bool :=
  existsSync fs (dir ++ ["skills"]) && existsSync fs (dir ++ [".claude"])

/-- `findRepoRoot`: walk upward from the program's own directory, up to
depth 10, and fall back to `resolve(__dirname, '..', '..')` (two levels up
from the start) when no marker directory is found. -/
def findRepoRoot (fs : FS) (startDir : Path) : Path :=
  (locateRootAux (hasRepoMarkers fs) startDir 10).getD startDir.dropLast.dropLast

/-- The marker `findCliRoot` checks: an `assets` subdirectory. -/
def hasCliMarker (fs : FS) (dir : Path) : Bool :=
  existsSync fs (dir ++ ["assets"])

/-- `findCliRoot` (dynamic variant): same walk with depth bound 5 and the
`assets` marker, with the same two-levels-up fallback. -/
def findCliRoot (fs : FS) (startDir : Path) : Path :=
  (locateRootAux (hasCliMarker fs) startDir 5).getD startDir.dropLast.dropLast

/-- `SKILLS_DIR = join(REPO_ROOT, 'skills')` (static variant). -/
def SKILLS_DIR (repoRoot : Path) : Path := repoRoot ++ ["skills"]

/-- `RULES_DIR = REPO_ROOT` (static variant: rules live at the repository
root). -/
def RULES_DIR (repoRoot : Path) : Path := repoRoot

/-! ## Dynamic catalog (`scanAvailableSkills` / `scanAvailableRules`,
dynamic variant) -/

/-- `ASSETS_DIR = join(CLI_ROOT, 'assets')`. -/
def ASSETS_DIR (cliRoot : Path) : Path := cliRoot ++ ["assets"]

/-- The dynamic variant's skills directory `join(ASSETS_DIR, 'skills')`. -/
def assetsSkillsDir (cliRoot : Path) : Path := cliRoot ++ ["assets", "skills"]

/-- The dynamic variant's rules directory `join(ASSETS_DIR, 'rules')`. -/
def assetsRulesDir (cliRoot : Path) : Path := cliRoot ++ ["assets", "rules"]

/-- `readdir(p)`: the distinct names of the immediate children of `p`. -/
def childNames (fs : FS) (p : Path) : List String :=
  ((fs.files.map (·.1) ++ fs.dirs).filterMap
    (fun q => if p.isPrefixOf q && p.length < q.length
              then (q.drop p.length).head? else none)).dedup

/-- `scanAvailableSkills`: the subdirectories of the assets skills
directory that are not hidden, sorted; a missing directory degrades to an
empty list with a warning. -/
def scanAvailableSkills (cliRoot : Path) (fs : FS) : List String × List LogEntry :=
  let dir := assetsSkillsDir cliRoot
  if !(existsSync fs dir) then ([], [.scanMissing .skill dir])
  else
    (sortNames ((childNames fs dir).filter
      (fun c => fs.isDirAt (dir ++ [c]) && !(startsWithDot c))), [])

/-- `scanAvailableRules`: the files of the assets rules directory ending in
`.md`, extension stripped, sorted; a missing directory degrades to an empty
list with a warning. -/
def scanAvailableRules (cliRoot : Path) (fs : FS) : List String × List LogEntry :=
  let dir := assetsRulesDir cliRoot
  if !(existsSync fs dir) then ([], [.scanMissing .rule dir])
  else
    (sortNames (((childNames fs dir).filter
      (fun c => fs.isFile (dir ++ [c]) && strEndsWith c ".md")).map stripMdSuffix), [])

/-! ## Assistant detector (`detect.ts`) -/

/-- `DetectionResult`. -/
structure DetectionResult where
  detected : List AIType
  suggested : Option AIType
deriving DecidableEq, Repr

/-- `detectAIType`: for each concrete assistant type, in enumeration order,
test the existence of its marker directory under `cwd`; suggest the single
match, `'all'` for several matches, and nothing for zero matches. -/
def detectAIType (fs : FS) (cwd : Path) : DetectionResult :=
  let detected := (AI_DIRECTORY_ORDER.filter
    (fun a => existsSync fs (cwd ++ [AI_DIRECTORIES a]))).map AITypeC.toAIType
  let suggested : Option AIType :=
    if detected.length == 1 then detected.head?
    else if 1 < detected.length then some .all
    else none
  ⟨detected, suggested⟩

/-- `ensureAIDirectory`: create the assistant's marker directory if absent
and return its path. -/
def ensureAIDirectory (errPaths : List Path) (aiType : AITypeC) (cwd : Path)
    (fs : FS) : Res (Path × FS) :=
  let aiPath := cwd ++ [AI_DIRECTORIES aiType]
  if existsSync fs aiPath then .ok (aiPath, fs)
  else
    match mkdirRec errPaths fs aiPath with
    | .ok fs' => .ok (aiPath, fs')
    | .error => .error

/-! ## Copy engine (`copySkills` / `copyRules`, static variant) -/

/-- Result of one `copySkills`/`copyRules` style loop: the accumulator of
copied names, the filesystem afterwards, and the logged lines. -/
structure LoopOut where
  copied : List String
  fs : FS
  log : List LogEntry
deriving DecidableEq, Repr

/-- The shared per-name loop of `copySkills` and `copyRules`: for each name
compute source and destination, skip with a warning when the source is
missing, skip with a warning when the destination exists and `force` is
unset, otherwise copy, catching and logging per-item copy failures, and
append each successfully copied name to the accumulator. -/
def copyLoop (kind : RKind) (repoRoot : Path) (force : Bool)
    (srcOf destOf : String → Path) (doCopy : FS → Path → Path → Res FS) :
    List String → FS → LoopOut
  | [], fs => ⟨[], fs, []⟩
  | name :: rest, fs =>
    let sourcePath := srcOf name
    let destPath := destOf name
    if !(existsSync fs sourcePath) then
      let out := copyLoop kind repoRoot force srcOf destOf doCopy rest fs
      ⟨out.copied, out.fs, .notFound kind name sourcePath repoRoot :: out.log⟩
    else if existsSync fs destPath && !force then
      let out := copyLoop kind repoRoot force srcOf destOf doCopy rest fs
      ⟨out.copied, out.fs, .alreadyExists kind name :: out.log⟩
    else
      match doCopy fs sourcePath destPath with
      | .ok fs1 =>
        let out := copyLoop kind repoRoot force srcOf destOf doCopy rest fs1
        ⟨name :: out.copied, out.fs, out.log⟩
      | .error =>
        let out := copyLoop kind repoRoot force srcOf destOf doCopy rest fs
        ⟨out.copied, out.fs, .copyFailed kind name :: out.log⟩

/-- Outcome of `copySkills`/`copyRules`: the returned name list (or the
propagated `mkdir` exception), the filesystem afterwards, and the log. -/
structure CopyOutcome where
  result : Res (List String)
  fs : FS
  log : List LogEntry
deriving DecidableEq, Repr

/-- Source path of the skill `name` in the catalog. -/
def skillSrc (repoRoot : Path) (name : String) : Path := SKILLS_DIR repoRoot ++ [name]

/-- Destination path of the skill `name` under the target skills
directory. -/
def skillDest (targetPath : Path) (name : String) : Path := targetPath ++ [name]

/-- Source path of the rule `name` (a `<name>.md` file at the repository
root in the static variant). -/
def ruleSrc (repoRoot : Path) (name : String) : Path := RULES_DIR repoRoot ++ [name ++ ".md"]

/-- Destination path of the rule `name` under the target rules
directory. -/
def ruleDest (targetPath : Path) (name : String) : Path := targetPath ++ [name ++ ".md"]

/-- `copySkills(aiType, targetDir, skillNames?, force)`: ensure the target
skills directory, resolve the working list (`skillNames` if defined, else
`AVAILABLE_SKILLS`), and run the per-skill loop with the recursive
directory copy. -/
def copySkills (repoRoot : Path) (errPaths : List Path) (aiType : AITypeC)
    (targetDir : Path) (skillNames : Option (List String)) (force : Bool)
    (fs : FS) : CopyOutcome :=
  let targetPath := targetDir ++ SKILLS_MAPPING aiType
  match mkdirRec errPaths fs targetPath with
  | .error => ⟨.error, fs, []⟩
  | .ok fs1 =>
    let skillsToCopy := skillNames.getD AVAILABLE_SKILLS
    let out := copyLoop .skill repoRoot force
      (skillSrc repoRoot) (skillDest targetPath) (cpDir errPaths force) skillsToCopy fs1
    ⟨.ok out.copied, out.fs, out.log⟩

/-- `copyRules(aiType, targetDir, ruleNames?, force)`: ensure the target
rules directory, resolve the working list (`ruleNames` if defined, else
`AVAILABLE_RULES`), and run the per-rule loop with the single-file copy. -/
def copyRules (repoRoot : Path) (errPaths : List Path) (aiType : AITypeC)
    (targetDir : Path) (ruleNames : Option (List String)) (force : Bool)
    (fs : FS) : CopyOutcome :=
  let targetPath := targetDir ++ RULES_MAPPING aiType
  match mkdirRec errPaths fs targetPath with
  | .error => ⟨.error, fs, []⟩
  | .ok fs1 =>
    let rulesToCopy := ruleNames.getD AVAILABLE_RULES
    let out := copyLoop .rule repoRoot force
      (ruleSrc repoRoot) (ruleDest targetPath) (cpFile errPaths force) rulesToCopy fs1
    ⟨.ok out.copied, out.fs, out.log⟩

/-- Outcome of `installResources`: the `{skills, rules}` pair (or a
propagated exception), the filesystem afterwards, and the log. -/
structure InstallOutcome where
  result : Res (List String × List String)
  fs : FS
  log : List LogEntry
deriving DecidableEq, Repr

/-- `installResources(aiType, resourceType, targetDir, options)`: run the
skill copy when the resource type includes skills, then the rule copy when
it includes rules; an exception from either propagates. -/
def installResources (repoRoot : Path) (errPaths : List Path) (aiType : AITypeC)
    (resourceType : ResourceType) (targetDir : Path)
    (optSkills optRules : Option (List String)) (force : Bool) (fs : FS) :
    InstallOutcome :=
  let sOut :=
    if resourceType == ResourceType.skill || resourceType == ResourceType.both then
      copySkills repoRoot errPaths aiType targetDir optSkills force fs
    else ⟨.ok [], fs, []⟩
  match sOut.result with
  | .error => ⟨.error, sOut.fs, sOut.log⟩
  | .ok skills =>
    let rOut :=
      if resourceType == ResourceType.rule || resourceType == ResourceType.both then
        copyRules repoRoot errPaths aiType targetDir optRules force sOut.fs
      else ⟨.ok [], sOut.fs, []⟩
    match rOut.result with
    | .error => ⟨.error, rOut.fs, sOut.log ++ rOut.log⟩
    | .ok rules => ⟨.ok (skills, rules), rOut.fs, sOut.log ++ rOut.log⟩

/-! ## Install orchestrator (`installCommand`, per-assistant loop) -/

/-- What the orchestrator reports for one assistant: the succeed message
with the tallies, or the fail message after a caught exception. -/
inductive AssistantOutcome where
  | success (skills rules : List String)
  | failure
deriving DecidableEq, Repr

/-- One spinner line of the orchestrator. -/
structure AssistantReport where
  aiType : AITypeC
  outcome : AssistantOutcome
deriving DecidableEq, Repr

/-- How the orchestrator turns the outcome of `installResources` into the
spinner report: an exception becomes the fail line, a result the succeed
line with the tallies; either way the loop continues from the filesystem
the call left behind. -/
def installStepRun (out : InstallOutcome) : AssistantOutcome × FS :=
  match out.result with
  | .error => (.failure, out.fs)
  | .ok (skills, rules) => (.success skills rules, out.fs)

/-- The body of the orchestrator's `try`/`catch` for one assistant: ensure
the marker directory, then install the resources; an exception from either
is caught here and reported as that assistant's failure. -/
def installStep (repoRoot : Path) (errPaths : List Path) (resourceType : ResourceType)
    (cwd : Path) (optSkills optRules : Option (List String)) (force : Bool)
    (aiType : AITypeC) (fs : FS) : AssistantOutcome × FS :=
  match ensureAIDirectory errPaths aiType cwd fs with
  | .error => (.failure, fs)
  | .ok (_, fs1) =>
    installStepRun (installResources repoRoot errPaths aiType resourceType cwd
      optSkills optRules force fs1)

/-- The per-assistant loop of `installCommand`: for each selected
assistant, run the `try`/`catch` body and continue with the next
assistant, accumulating one report per assistant. -/
def installCommandLoop (repoRoot : Path) (errPaths : List Path)
    (resourceType : ResourceType) (cwd : Path)
    (optSkills optRules : Option (List String)) (force : Bool) :
    List AITypeC → FS → List AssistantReport × FS
  | [], fs => ([], fs)
  | aiType :: rest, fs =>
    (⟨aiType, (installStep repoRoot errPaths resourceType cwd optSkills optRules force
        aiType fs).1⟩ ::
      (installCommandLoop repoRoot errPaths resourceType cwd optSkills optRules force rest
        (installStep repoRoot errPaths resourceType cwd optSkills optRules force
          aiType fs).2).1,
     (installCommandLoop repoRoot errPaths resourceType cwd optSkills optRules force rest
        (installStep repoRoot errPaths resourceType cwd optSkills optRules force
          aiType fs).2).2)

/-! ## Proof-infrastructure definitions and concrete fixtures -/

/-- `fs'` extends `fs` with writes confined to the subtree of `tgt`:
existence, file-ness and directory-ness are monotone (nothing is ever
deleted or changes kind downward), and existence and file-ness are
unchanged on paths that do not touch `tgt`. -/
structure ExtendsWithin (tgt : Path) (fs fs' : FS) : Prop where
  mono : ∀ q, existsSync fs q = true → existsSync fs' q = true
  frameEx : ∀ q, touches q tgt = false → existsSync fs' q = existsSync fs q
  frameFile : ∀ q, touches q tgt = false → fs'.isFile q = fs.isFile q
  monoFile : ∀ q, fs.isFile q = true → fs'.isFile q = true
  monoDir : ∀ q, fs.isDirAt q = true → fs'.isDirAt q = true

/-- What the loop lemmas need of one copy step: a successful copy writes
only inside the target subtree, and a failing copy keeps failing in any
later state the loop can reach (the loop only grows the filesystem inside
the target and leaves sources outside it untouched). -/
structure CopyGood (tgt : Path) (srcOf destOf : String → Path)
    (doCopy : FS → Path → Path → Res FS) : Prop where
  ext : ∀ fs n fs', doCopy fs (srcOf n) (destOf n) = .ok fs' → ExtendsWithin tgt fs fs'
  errStable : ∀ fs fs₂ n, ExtendsWithin tgt fs fs₂ → touches (srcOf n) tgt = false →
    doCopy fs (srcOf n) (destOf n) = .error → doCopy fs₂ (srcOf n) (destOf n) = .error

/-- The copy step for `n` creates its destination whenever it succeeds.
This holds unconditionally for the single-file copy, but for the recursive
directory copy only when the exclusion filter admits the root source:
when it rejects it, `fs.cp` resolves having created nothing. -/
def CreatesDest (srcOf destOf : String → Path) (doCopy : FS → Path → Path → Res FS)
    (n : String) : Prop :=
  ∀ fs fs', doCopy fs (srcOf n) (destOf n) = .ok fs' → existsSync fs' (destOf n) = true

/-- The condition under which one iteration copies nothing and leaves the
filesystem unchanged: missing source, existing destination (with `force`
unset), or a failing copy. -/
def skipsName (srcOf destOf : String → Path) (doCopy : FS → Path → Path → Res FS)
    (fs : FS) (n : String) : Bool :=
  !(existsSync fs (srcOf n)) || existsSync fs (destOf n) ||
    (doCopy fs (srcOf n) (destOf n)).isError

/-- `j` applications of `dirname` (drop the last segment). -/
def iterDropLast : Nat → Path → Path
  | 0, p => p
  | k + 1, p => iterDropLast k p.dropLast

/-- The catalog filesystem of the C9 scenario: a repository at `/repo` with
the `schema` skill (containing its `SKILL.md`) and the repo markers, and a
fresh empty target directory `/proj`. -/
def fsC9 : FS :=
  ⟨[(["repo", "skills", "schema", "SKILL.md"], "skill doc")],
   [["repo", "skills"], ["repo", ".claude"]]⟩

/-- A catalog whose repository root lies under a `node_modules` directory:
every skill source path below it is rejected by the copy filter. -/
def nmCatalogFS : FS :=
  ⟨[(["node_modules", "repo", "skills", "schema", "SKILL.md"], "doc")],
   [["node_modules", "repo", "skills"], ["node_modules", "repo", ".claude"]]⟩

/-- The filesystem of the C6 counterexample: the assets tree contains a
hidden rule file `.hidden.md` (and an empty skills directory). -/
def fsC6 : FS :=
  ⟨[(["cli", "assets", "rules", ".hidden.md"], "secret")],
   [["cli", "assets", "skills"]]⟩

/-- A catalog with the single rule document `schema-rules.md` at the
repository root. -/
def rulesCatalogFS : FS :=
  ⟨[(["repo", "schema-rules.md"], "rules doc")], [["repo", "skills"]]⟩

/-- An assets tree with skill directories `a`, `b` and a hidden `.h`. -/
def fsC6b : FS :=
  ⟨[], [["cli", "assets", "skills", "b"], ["cli", "assets", "skills", ".h"],
        ["cli", "assets", "skills", "a"]]⟩

/-- A repository root at `/repo` with both markers. -/
def repoMarkersFS : FS := ⟨[], [["repo", "skills"], ["repo", ".claude"]]⟩

/-- A CLI root at `/cli` with the `assets` marker. -/
def cliMarkerFS : FS := ⟨[], [["cli", "assets"]]⟩

/-- The empty filesystem. -/
def emptyFS : FS := ⟨[], []⟩

/-! ## Basic lemmas about paths and the filesystem model -/

theorem bool_eq_of_iff {a b : Bool} (h : a = true ↔ b = true) : a = b := by
  cases a <;> cases b <;> simp_all

theorem pfx_iff {l₁ l₂ : Path} : l₁.isPrefixOf l₂ = true ↔ l₁ <+: l₂ := by
  simp

theorem pfx_total {l₁ l₂ l₃ : Path} (h1 : l₁ <+: l₃) (h2 : l₂ <+: l₃) :
    l₁ <+: l₂ ∨ l₂ <+: l₁ := by
  exact List.prefix_or_prefix_of_prefix h1 h2

theorem touches_false_iff {p q : Path} : touches p q = false ↔ ¬ p <+: q ∧ ¬ q <+: p := by
  rw [touches, Bool.or_eq_false_iff]
  exact and_congr (by rw [Bool.eq_false_iff]; exact not_congr pfx_iff)
    (by rw [Bool.eq_false_iff]; exact not_congr pfx_iff)

/-- A path that does not touch `tgt` is unrelated to any path below `tgt`. -/
theorem not_touches_below {q tgt d : Path} (hd : tgt <+: d) (h : touches q tgt = false) :
    ¬ q <+: d ∧ q ≠ d ∧ ¬ d <+: q := by
  obtain ⟨h1, h2⟩ := touches_false_iff.mp h
  refine ⟨?_, ?_, ?_⟩
  · intro hqd
    rcases pfx_total hqd hd with h3 | h3
    · exact h1 h3
    · exact h2 h3
  · rintro rfl
    exact h2 hd
  · intro hdq
    exact h2 (hd.trans hdq)

theorem existsSync_iff {fs : FS} {p : Path} :
    existsSync fs p = true ↔ (∃ e ∈ fs.files, p <+: e.1) ∨ (∃ d ∈ fs.dirs, p <+: d) := by
  simp [existsSync, pfx_iff]

theorem isFile_iff {fs : FS} {p : Path} :
    fs.isFile p = true ↔ ∃ e ∈ fs.files, e.1 = p := by
  simp [FS.isFile]

theorem isFile_existsSync {fs : FS} {p : Path} (h : fs.isFile p = true) :
    existsSync fs p = true := by
  rw [existsSync_iff]
  rw [isFile_iff] at h
  obtain ⟨e, he, hp⟩ := h
  exact .inl ⟨e, he, hp ▸ List.prefix_refl p⟩

theorem existsSync_putFile {fs : FS} {p : Path} {c : String} {q : Path} :
    existsSync (fs.putFile p c) q = (existsSync fs q || q.isPrefixOf p) := by
  apply bool_eq_of_iff
  simp only [existsSync_iff, FS.putFile, List.mem_cons, List.mem_filter, Bool.or_eq_true,
    pfx_iff, Bool.not_eq_true', beq_eq_false_iff_ne, ne_eq]
  constructor
  · rintro (⟨e, (rfl | ⟨he, _⟩), hq⟩ | ⟨d, hd, hq⟩)
    · right; exact hq
    · left; left; exact ⟨e, he, hq⟩
    · left; right; exact ⟨d, hd, hq⟩
  · rintro ((⟨e, he, hq⟩ | ⟨d, hd, hq⟩) | hq)
    · by_cases hep : e.1 = p
      · left; exact ⟨(p, c), .inl rfl, hep ▸ hq⟩
      · left; exact ⟨e, .inr ⟨he, hep⟩, hq⟩
    · right; exact ⟨d, hd, hq⟩
    · left; exact ⟨(p, c), .inl rfl, hq⟩

theorem isFile_putFile {fs : FS} {p : Path} {c : String} {q : Path} :
    (fs.putFile p c).isFile q = (q == p || fs.isFile q) := by
  apply bool_eq_of_iff
  simp only [isFile_iff, FS.putFile, List.mem_cons, List.mem_filter, Bool.or_eq_true,
    beq_iff_eq, Bool.not_eq_true', beq_eq_false_iff_ne, ne_eq]
  constructor
  · rintro ⟨e, (rfl | ⟨he, hne⟩), hq⟩
    · exact .inl hq.symm
    · exact .inr ⟨e, he, hq⟩
  · rintro (hqp | ⟨e, he, hq⟩)
    · exact ⟨(p, c), .inl rfl, hqp.symm⟩
    · by_cases hep : e.1 = p
      · exact ⟨(p, c), .inl rfl, by rw [← hq, hep]⟩
      · exact ⟨e, .inr ⟨he, hep⟩, hq⟩

theorem existsSync_addDir {fs : FS} {p q : Path} :
    existsSync (fs.addDir p) q = (existsSync fs q || q.isPrefixOf p) := by
  apply bool_eq_of_iff
  simp only [existsSync_iff, FS.addDir, List.mem_cons, Bool.or_eq_true, pfx_iff]
  constructor
  · rintro (⟨e, he, hq⟩ | ⟨d, (rfl | hd), hq⟩)
    · left; left; exact ⟨e, he, hq⟩
    · right; exact hq
    · left; right; exact ⟨d, hd, hq⟩
  · rintro ((⟨e, he, hq⟩ | ⟨d, hd, hq⟩) | hq)
    · left; exact ⟨e, he, hq⟩
    · right; exact ⟨d, .inr hd, hq⟩
    · right; exact ⟨p, .inl rfl, hq⟩

theorem isFile_addDir {fs : FS} {p q : Path} : (fs.addDir p).isFile q = fs.isFile q := rfl

theorem isDirAt_iff {fs : FS} {p : Path} :
    fs.isDirAt p = true ↔
      (∃ d ∈ fs.dirs, p <+: d) ∨ (∃ e ∈ fs.files, p <+: e.1 ∧ e.1 ≠ p) := by
  simp only [FS.isDirAt, Bool.or_eq_true, List.any_eq_true, Bool.and_eq_true,
    Bool.not_eq_true', beq_eq_false_iff_ne, ne_eq, pfx_iff]

theorem isDirAt_putFile {fs : FS} {p : Path} {c : String} {q : Path} :
    (fs.putFile p c).isDirAt q = (fs.isDirAt q || (q.isPrefixOf p && !(q == p))) := by
  apply bool_eq_of_iff
  simp only [isDirAt_iff, FS.putFile, List.mem_cons, List.mem_filter, Bool.or_eq_true,
    Bool.and_eq_true, Bool.not_eq_true', beq_eq_false_iff_ne, ne_eq, pfx_iff]
  constructor
  · rintro (⟨d, hd, hpr⟩ | ⟨e, (rfl | ⟨he, _⟩), hpr, hne⟩)
    · exact .inl (.inl ⟨d, hd, hpr⟩)
    · exact .inr ⟨hpr, fun hqp => hne (by rw [hqp])⟩
    · exact .inl (.inr ⟨e, he, hpr, hne⟩)
  · rintro ((⟨d, hd, hpr⟩ | ⟨e, he, hpr, hne⟩) | ⟨hpr, hqp⟩)
    · exact .inl ⟨d, hd, hpr⟩
    · by_cases hep : e.1 = p
      · exact .inr ⟨(p, c), .inl rfl, by rw [← hep]; exact hpr, by rw [← hep]; exact hne⟩
      · exact .inr ⟨e, .inr ⟨he, hep⟩, hpr, hne⟩
    · exact .inr ⟨(p, c), .inl rfl, hpr, fun hpq => hqp hpq.symm⟩

theorem isDirAt_addDir {fs : FS} {p q : Path} :
    (fs.addDir p).isDirAt q = (fs.isDirAt q || q.isPrefixOf p) := by
  apply bool_eq_of_iff
  simp only [isDirAt_iff, FS.addDir, List.mem_cons, Bool.or_eq_true, pfx_iff]
  constructor
  · rintro (⟨d, (rfl | hd), hpr⟩ | ⟨e, he, hpr, hne⟩)
    · exact .inr hpr
    · exact .inl (.inl ⟨d, hd, hpr⟩)
    · exact .inl (.inr ⟨e, he, hpr, hne⟩)
  · rintro ((⟨d, hd, hpr⟩ | ⟨e, he, hpr, hne⟩) | hpr)
    · exact .inl ⟨d, .inr hd, hpr⟩
    · exact .inr ⟨e, he, hpr, hne⟩
    · exact .inl ⟨p, .inl rfl, hpr⟩

/-! ## The frame relation: an operation that only writes inside the subtree
rooted at `tgt` can only add coverage, and changes nothing observable
outside that subtree. -/

theorem ExtendsWithin.refl (tgt : Path) (fs : FS) : ExtendsWithin tgt fs fs :=
  ⟨fun _ h => h, fun _ _ => rfl, fun _ _ => rfl, fun _ h => h, fun _ h => h⟩

theorem ExtendsWithin.trans {tgt : Path} {fs1 fs2 fs3 : FS}
    (h12 : ExtendsWithin tgt fs1 fs2) (h23 : ExtendsWithin tgt fs2 fs3) :
    ExtendsWithin tgt fs1 fs3 :=
  ⟨fun q h => h23.mono q (h12.mono q h),
   fun q h => (h23.frameEx q h).trans (h12.frameEx q h),
   fun q h => (h23.frameFile q h).trans (h12.frameFile q h),
   fun q h => h23.monoFile q (h12.monoFile q h),
   fun q h => h23.monoDir q (h12.monoDir q h)⟩

theorem extendsWithin_putFile {tgt d : Path} (fs : FS) (c : String) (h : tgt <+: d) :
    ExtendsWithin tgt fs (fs.putFile d c) := by
  refine ⟨?_, ?_, ?_, ?_, ?_⟩
  · intro q hq
    rw [existsSync_putFile, hq, Bool.true_or]
  · intro q hq
    obtain ⟨hnd, _, _⟩ := not_touches_below h hq
    rw [existsSync_putFile]
    have : q.isPrefixOf d = false := by
      rw [Bool.eq_false_iff]
      intro hc
      exact hnd (pfx_iff.mp hc)
    rw [this, Bool.or_false]
  · intro q hq
    obtain ⟨_, hne, _⟩ := not_touches_below h hq
    rw [isFile_putFile]
    have : (q == d) = false := by
      rw [beq_eq_false_iff_ne]
      exact hne
    rw [this, Bool.false_or]
  · intro q hq
    rw [isFile_putFile, hq, Bool.or_true]
  · intro q hq
    rw [isDirAt_putFile, hq, Bool.true_or]

theorem extendsWithin_addDir {tgt d : Path} (fs : FS) (h : tgt <+: d) :
    ExtendsWithin tgt fs (fs.addDir d) := by
  refine ⟨?_, ?_, ?_, ?_, ?_⟩
  · intro q hq
    rw [existsSync_addDir, hq, Bool.true_or]
  · intro q hq
    obtain ⟨hnd, _, _⟩ := not_touches_below h hq
    rw [existsSync_addDir]
    have : q.isPrefixOf d = false := by
      rw [Bool.eq_false_iff]
      intro hc
      exact hnd (pfx_iff.mp hc)
    rw [this, Bool.or_false]
  · intro q _
    rw [isFile_addDir]
  · intro q hq
    rw [isFile_addDir]
    exact hq
  · intro q hq
    rw [isDirAt_addDir, hq, Bool.true_or]

/-! ## Lemmas about `mkdirRec` -/

theorem mkdirMissing_sub {fs : FS} {p q : Path} (h : q ∈ mkdirMissing fs p) :
    q <+: p ∧ q ≠ [] ∧ existsSync fs q = false := by
  simp only [mkdirMissing, List.mem_filter, List.mem_inits, Bool.and_eq_true,
    Bool.not_eq_true', beq_eq_false_iff_ne, ne_eq] at h
  tauto

theorem mkdirRec_ok_dirs {errPaths : List Path} {fs : FS} {p : Path} {fs' : FS}
    (h : mkdirRec errPaths fs p = .ok fs') :
    fs' = ⟨fs.files, mkdirMissing fs p ++ fs.dirs⟩ := by
  unfold mkdirRec at h
  split at h
  · exact Res.noConfusion h
  · injection h with h'
    exact h'.symm

theorem mkdirRec_ok_extendsWithin {errPaths : List Path} {fs : FS} {p : Path} {fs' : FS}
    (h : mkdirRec errPaths fs p = .ok fs') : ExtendsWithin p fs fs' := by
  obtain rfl := mkdirRec_ok_dirs h
  refine ⟨?_, ?_, ?_, ?_, ?_⟩
  · intro q hq
    rw [existsSync_iff] at hq ⊢
    rcases hq with ⟨e, he, hpr⟩ | ⟨d, hd, hpr⟩
    · exact .inl ⟨e, he, hpr⟩
    · exact .inr ⟨d, List.mem_append_right _ hd, hpr⟩
  · intro q hq
    apply bool_eq_of_iff
    rw [existsSync_iff, existsSync_iff]
    constructor
    · rintro (⟨e, he, hpr⟩ | ⟨d, hd, hpr⟩)
      · exact .inl ⟨e, he, hpr⟩
      · rcases List.mem_append.mp hd with hd | hd
        · obtain ⟨hmp, _, _⟩ := mkdirMissing_sub hd
          exact absurd (hpr.trans hmp) (touches_false_iff.mp hq).1
        · exact .inr ⟨d, hd, hpr⟩
    · rintro (⟨e, he, hpr⟩ | ⟨d, hd, hpr⟩)
      · exact .inl ⟨e, he, hpr⟩
      · exact .inr ⟨d, List.mem_append_right _ hd, hpr⟩
  · intro q _
    rfl
  · intro q hq
    exact hq
  · intro q hq
    rw [isDirAt_iff] at hq ⊢
    rcases hq with ⟨d, hd, hpr⟩ | ⟨e, he, hpr, hne⟩
    · exact .inl ⟨d, List.mem_append_right _ hd, hpr⟩
    · exact .inr ⟨e, he, hpr, hne⟩

theorem mkdirRec_ok_covers {errPaths : List Path} {fs : FS} {p : Path} {fs' : FS}
    (h : mkdirRec errPaths fs p = .ok fs') :
    ∀ q, q <+: p → q ≠ [] → existsSync fs' q = true := by
  intro q hq hne
  by_cases hex : existsSync fs q = true
  · exact (mkdirRec_ok_extendsWithin h).1 q hex
  · obtain rfl := mkdirRec_ok_dirs h
    rw [existsSync_iff]
    right
    refine ⟨q, List.mem_append_left _ ?_, List.prefix_refl q⟩
    simp only [mkdirMissing, List.mem_filter, List.mem_inits, Bool.and_eq_true,
      Bool.not_eq_true', beq_eq_false_iff_ne, ne_eq]
    exact ⟨hq, hne, Bool.eq_false_iff.mpr hex⟩

theorem mkdirRec_noop {errPaths : List Path} {fs : FS} {p : Path}
    (h : ∀ q, q <+: p → q ≠ [] → existsSync fs q = true) :
    mkdirRec errPaths fs p = .ok fs := by
  have hm : mkdirMissing fs p = [] := by
    rw [mkdirMissing, List.filter_eq_nil_iff]
    intro q hq
    rw [List.mem_inits] at hq
    by_cases hne : q = []
    · simp [hne]
    · simp [hne, h q hq hne]
  unfold mkdirRec
  rw [hm]
  simp

theorem extendsWithin_fold {tgt dest : Path} (htgt : tgt <+: dest) (srcLen : Nat)
    (force : Bool) (entries : List (Path × String)) :
    ∀ acc : FS, ExtendsWithin tgt acc (entries.foldl (cpDirStep dest srcLen force) acc) := by
  induction entries with
  | nil => intro acc; exact ExtendsWithin.refl tgt acc
  | cons e es ih =>
    intro acc
    rw [List.foldl_cons]
    refine ExtendsWithin.trans ?_ (ih _)
    simp only [cpDirStep]
    by_cases hc : (!force && acc.isFile (dest ++ e.1.drop srcLen)) = true
    · rw [if_pos hc]
      exact ExtendsWithin.refl tgt acc
    · rw [if_neg hc]
      exact extendsWithin_putFile acc e.2 (htgt.trans (List.prefix_append _ _))

theorem cpDir_ok_extendsWithin {errPaths : List Path} {force : Bool} {fs : FS}
    {src dest : Path} {fs' : FS} {tgt : Path} (htgt : tgt <+: dest)
    (h : cpDir errPaths force fs src dest = .ok fs') : ExtendsWithin tgt fs fs' := by
  unfold cpDir at h
  split at h
  · exact Res.noConfusion h
  · split at h
    · exact Res.noConfusion h
    · split at h
      · injection h with h'
        subst h'
        exact ExtendsWithin.trans (extendsWithin_addDir fs htgt)
          (extendsWithin_fold htgt _ _ _ _)
      · injection h with h'
        subst h'
        exact ExtendsWithin.refl tgt fs

/-- A successful directory copy whose root source the filter admits does
create the destination.  (When the filter rejects the root, nothing is
created at all.) -/
theorem cpDir_ok_dest {errPaths : List Path} {force : Bool} {fs : FS}
    {src dest : Path} {fs' : FS} (hfil : cpFilter src = true)
    (h : cpDir errPaths force fs src dest = .ok fs') :
    existsSync fs' dest = true := by
  unfold cpDir at h
  split at h
  · exact Res.noConfusion h
  · split at h
    · exact Res.noConfusion h
    · injection h with h'
      subst h'
      apply (extendsWithin_fold (List.prefix_refl dest) src.length force _ _).mono
      rw [existsSync_addDir, pfx_iff.mpr (List.prefix_refl dest), Bool.or_true]

theorem cpDir_error_iff {errPaths : List Path} {force : Bool} {fs : FS} {src dest : Path} :
    cpDir errPaths force fs src dest = .error ↔
      (errPaths.contains dest = true ∨ fs.isFile dest = true) := by
  unfold cpDir
  split
  · simp_all
  · split
    · simp_all
    · split
      · simp_all
      · simp_all

theorem lookupFile_eq_none {fs : FS} {p : Path} :
    fs.lookupFile p = none ↔ fs.isFile p = false := by
  simp [FS.lookupFile, FS.isFile, List.find?_eq_none]

theorem cpFile_lookup_none {errPaths : List Path} {force : Bool} {fs : FS}
    {src dest : Path} (hl : fs.lookupFile src = none) :
    cpFile errPaths force fs src dest = .error := by
  unfold cpFile
  rw [hl]

theorem cpFile_lookup_some {errPaths : List Path} {force : Bool} {fs : FS}
    {src dest : Path} {c : String} (hl : fs.lookupFile src = some c) :
    cpFile errPaths force fs src dest =
      if errPaths.contains dest then .error
      else if fs.isDirAt dest then .error
      else if !force && fs.isFile dest then .ok fs
      else .ok (fs.putFile dest c) := by
  unfold cpFile
  rw [hl]

theorem isFile_lookup {fs : FS} {p : Path} :
    fs.isFile p = true ↔ ∃ c, fs.lookupFile p = some c := by
  constructor
  · intro h
    cases hl : fs.lookupFile p with
    | none => rw [lookupFile_eq_none.mp hl] at h; exact Bool.noConfusion h
    | some c => exact ⟨c, rfl⟩
  · rintro ⟨c, hl⟩
    by_contra hc
    rw [Bool.not_eq_true] at hc
    rw [lookupFile_eq_none.mpr hc] at hl
    exact Option.noConfusion hl

theorem cpFile_error_iff {errPaths : List Path} {force : Bool} {fs : FS} {src dest : Path} :
    cpFile errPaths force fs src dest = .error ↔
      (fs.isFile src = false ∨ errPaths.contains dest = true ∨ fs.isDirAt dest = true) := by
  cases hl : fs.lookupFile src with
  | none =>
    rw [cpFile_lookup_none hl]
    simp [lookupFile_eq_none.mp hl]
  | some c =>
    have hf : fs.isFile src = true := isFile_lookup.mpr ⟨c, hl⟩
    rw [cpFile_lookup_some hl]
    by_cases hcont : errPaths.contains dest = true
    · have hm : dest ∈ errPaths := by simpa using hcont
      rw [if_pos hcont]
      simp [hm]
    · have hm : dest ∉ errPaths := by simpa using hcont
      rw [if_neg hcont]
      by_cases hdir : fs.isDirAt dest = true
      · rw [if_pos hdir]
        simp [hdir]
      · rw [if_neg hdir]
        by_cases hif : (!force && fs.isFile dest) = true
        · rw [if_pos hif]
          simp [hf, hm, hdir]
        · rw [if_neg hif]
          simp [hf, hm, hdir]

theorem cpFile_ok_extendsWithin {errPaths : List Path} {force : Bool} {fs : FS}
    {src dest : Path} {fs' : FS} {tgt : Path} (htgt : tgt <+: dest)
    (h : cpFile errPaths force fs src dest = .ok fs') : ExtendsWithin tgt fs fs' := by
  cases hl : fs.lookupFile src with
  | none =>
    rw [cpFile_lookup_none hl] at h
    exact Res.noConfusion h
  | some c =>
    rw [cpFile_lookup_some hl] at h
    split at h
    · exact Res.noConfusion h
    · split at h
      · exact Res.noConfusion h
      · split at h
        · injection h with h'
          subst h'
          exact ExtendsWithin.refl tgt fs
        · injection h with h'
          subst h'
          exact extendsWithin_putFile fs c htgt

theorem cpFile_ok_dest {errPaths : List Path} {force : Bool} {fs : FS}
    {src dest : Path} {fs' : FS}
    (h : cpFile errPaths force fs src dest = .ok fs') :
    existsSync fs' dest = true := by
  cases hl : fs.lookupFile src with
  | none =>
    rw [cpFile_lookup_none hl] at h
    exact Res.noConfusion h
  | some c =>
    rw [cpFile_lookup_some hl] at h
    split at h
    · exact Res.noConfusion h
    · split at h
      · exact Res.noConfusion h
      · split at h
        · rename_i hcond
          injection h with h'
          subst h'
          rw [Bool.and_eq_true] at hcond
          exact isFile_existsSync hcond.2
        · injection h with h'
          subst h'
          apply isFile_existsSync
          rw [isFile_putFile]
          simp

theorem cpFile_error_stable {errPaths : List Path} {force : Bool} {fs fs₂ : FS}
    {src dest tgt : Path} (hext : ExtendsWithin tgt fs fs₂)
    (htouch : touches src tgt = false)
    (h : cpFile errPaths force fs src dest = .error) :
    cpFile errPaths force fs₂ src dest = .error := by
  rw [cpFile_error_iff] at h ⊢
  rcases h with h | h | h
  · exact .inl ((hext.frameFile src htouch).trans h)
  · exact .inr (.inl h)
  · exact .inr (.inr (hext.monoDir dest h))

/-! ## Generic lemmas about the per-name copy loop -/

theorem isError_eq {α : Type} {r : Res α} : r.isError = true ↔ r = .error := by
  cases r <;> simp [Res.isError]

theorem copyGood_cpDir (errPaths : List Path) (force : Bool) (repoRoot targetPath : Path) :
    CopyGood targetPath (skillSrc repoRoot) (skillDest targetPath) (cpDir errPaths force) := by
  refine ⟨?_, ?_⟩
  · intro fs n fs' h
    exact cpDir_ok_extendsWithin (List.prefix_append _ _) h
  · intro fs fs₂ n hext _ h
    rw [cpDir_error_iff] at h ⊢
    rcases h with h | h
    · exact .inl h
    · exact .inr (hext.monoFile _ h)

theorem copyGood_cpFile (errPaths : List Path) (force : Bool) (repoRoot targetPath : Path) :
    CopyGood targetPath (ruleSrc repoRoot) (ruleDest targetPath) (cpFile errPaths force) := by
  refine ⟨?_, ?_⟩
  · intro fs n fs' h
    exact cpFile_ok_extendsWithin (List.prefix_append _ _) h
  · intro fs fs₂ n hext htouch h
    exact cpFile_error_stable hext htouch h

/-- A directory copy whose source the filter admits creates its
destination whenever it succeeds. -/
theorem createsDest_cpDir (errPaths : List Path) (force : Bool) (repoRoot targetPath : Path)
    (n : String) (hfil : cpFilter (skillSrc repoRoot n) = true) :
    CreatesDest (skillSrc repoRoot) (skillDest targetPath) (cpDir errPaths force) n :=
  fun _ _ h => cpDir_ok_dest hfil h

/-- A single-file copy creates (or finds) its destination whenever it
succeeds. -/
theorem createsDest_cpFile (errPaths : List Path) (force : Bool) (repoRoot targetPath : Path)
    (n : String) :
    CreatesDest (ruleSrc repoRoot) (ruleDest targetPath) (cpFile errPaths force) n :=
  fun _ _ h => cpFile_ok_dest h

/-! Unfolding equations for the four branches of one loop iteration. -/

theorem copyLoop_nil {kind : RKind} {root : Path} {force : Bool}
    {srcOf destOf : String → Path} {doCopy : FS → Path → Path → Res FS} {fs : FS} :
    copyLoop kind root force srcOf destOf doCopy [] fs = ⟨[], fs, []⟩ := rfl

theorem copyLoop_cons {kind : RKind} {root : Path} {force : Bool}
    {srcOf destOf : String → Path} {doCopy : FS → Path → Path → Res FS}
    {n : String} {rest : List String} {fs : FS} :
    copyLoop kind root force srcOf destOf doCopy (n :: rest) fs =
      (if !(existsSync fs (srcOf n)) then
        ⟨(copyLoop kind root force srcOf destOf doCopy rest fs).copied,
         (copyLoop kind root force srcOf destOf doCopy rest fs).fs,
         .notFound kind n (srcOf n) root ::
           (copyLoop kind root force srcOf destOf doCopy rest fs).log⟩
      else if existsSync fs (destOf n) && !force then
        ⟨(copyLoop kind root force srcOf destOf doCopy rest fs).copied,
         (copyLoop kind root force srcOf destOf doCopy rest fs).fs,
         .alreadyExists kind n ::
           (copyLoop kind root force srcOf destOf doCopy rest fs).log⟩
      else
        match doCopy fs (srcOf n) (destOf n) with
        | .ok fs1 =>
          ⟨n :: (copyLoop kind root force srcOf destOf doCopy rest fs1).copied,
           (copyLoop kind root force srcOf destOf doCopy rest fs1).fs,
           (copyLoop kind root force srcOf destOf doCopy rest fs1).log⟩
        | .error =>
          ⟨(copyLoop kind root force srcOf destOf doCopy rest fs).copied,
           (copyLoop kind root force srcOf destOf doCopy rest fs).fs,
           .copyFailed kind n ::
             (copyLoop kind root force srcOf destOf doCopy rest fs).log⟩) := rfl

theorem copyLoop_cons_missing {kind : RKind} {root : Path} {force : Bool}
    {srcOf destOf : String → Path} {doCopy : FS → Path → Path → Res FS}
    {n : String} {rest : List String} {fs : FS}
    (h : existsSync fs (srcOf n) = false) :
    copyLoop kind root force srcOf destOf doCopy (n :: rest) fs =
      ⟨(copyLoop kind root force srcOf destOf doCopy rest fs).copied,
       (copyLoop kind root force srcOf destOf doCopy rest fs).fs,
       .notFound kind n (srcOf n) root ::
         (copyLoop kind root force srcOf destOf doCopy rest fs).log⟩ := by
  rw [copyLoop_cons, h]
  simp

theorem copyLoop_cons_skip {kind : RKind} {root : Path} {force : Bool}
    {srcOf destOf : String → Path} {doCopy : FS → Path → Path → Res FS}
    {n : String} {rest : List String} {fs : FS}
    (hsrc : existsSync fs (srcOf n) = true)
    (hcond : (existsSync fs (destOf n) && !force) = true) :
    copyLoop kind root force srcOf destOf doCopy (n :: rest) fs =
      ⟨(copyLoop kind root force srcOf destOf doCopy rest fs).copied,
       (copyLoop kind root force srcOf destOf doCopy rest fs).fs,
       .alreadyExists kind n ::
         (copyLoop kind root force srcOf destOf doCopy rest fs).log⟩ := by
  rw [copyLoop_cons, hsrc, hcond]
  simp

theorem copyLoop_cons_ok {kind : RKind} {root : Path} {force : Bool}
    {srcOf destOf : String → Path} {doCopy : FS → Path → Path → Res FS}
    {n : String} {rest : List String} {fs fs1 : FS}
    (hsrc : existsSync fs (srcOf n) = true)
    (hcond : (existsSync fs (destOf n) && !force) = false)
    (hcopy : doCopy fs (srcOf n) (destOf n) = .ok fs1) :
    copyLoop kind root force srcOf destOf doCopy (n :: rest) fs =
      ⟨n :: (copyLoop kind root force srcOf destOf doCopy rest fs1).copied,
       (copyLoop kind root force srcOf destOf doCopy rest fs1).fs,
       (copyLoop kind root force srcOf destOf doCopy rest fs1).log⟩ := by
  rw [copyLoop_cons, hsrc, hcond, hcopy]
  simp

theorem copyLoop_cons_err {kind : RKind} {root : Path} {force : Bool}
    {srcOf destOf : String → Path} {doCopy : FS → Path → Path → Res FS}
    {n : String} {rest : List String} {fs : FS}
    (hsrc : existsSync fs (srcOf n) = true)
    (hcond : (existsSync fs (destOf n) && !force) = false)
    (hcopy : doCopy fs (srcOf n) (destOf n) = .error) :
    copyLoop kind root force srcOf destOf doCopy (n :: rest) fs =
      ⟨(copyLoop kind root force srcOf destOf doCopy rest fs).copied,
       (copyLoop kind root force srcOf destOf doCopy rest fs).fs,
       .copyFailed kind n ::
         (copyLoop kind root force srcOf destOf doCopy rest fs).log⟩ := by
  rw [copyLoop_cons, hsrc, hcond, hcopy]
  simp

/-- The loop only writes inside the target subtree. -/
theorem copyLoop_fs_extends {tgt : Path} {srcOf destOf : String → Path}
    {doCopy : FS → Path → Path → Res FS}
    (G : CopyGood tgt srcOf destOf doCopy) (kind : RKind) (root : Path) (force : Bool) :
    ∀ (ns : List String) (fs : FS),
      ExtendsWithin tgt fs (copyLoop kind root force srcOf destOf doCopy ns fs).fs
  | [], fs => by
    rw [copyLoop_nil]
    exact ExtendsWithin.refl tgt fs
  | n :: rest, fs => by
    by_cases hsrc : existsSync fs (srcOf n) = false
    · rw [copyLoop_cons_missing hsrc]
      exact copyLoop_fs_extends G kind root force rest fs
    · have hsrc' : existsSync fs (srcOf n) = true := by
        cases h : existsSync fs (srcOf n)
        · exact absurd h hsrc
        · rfl
      by_cases hdest : (existsSync fs (destOf n) && !force) = true
      · rw [copyLoop_cons_skip hsrc' hdest]
        exact copyLoop_fs_extends G kind root force rest fs
      · have hdest' : (existsSync fs (destOf n) && !force) = false :=
          Bool.eq_false_iff.mpr hdest
        cases hcopy : doCopy fs (srcOf n) (destOf n) with
        | ok fs1 =>
          rw [copyLoop_cons_ok hsrc' hdest' hcopy]
          exact ExtendsWithin.trans (G.ext fs n fs1 hcopy) (copyLoop_fs_extends G kind root force rest fs1)
        | error =>
          rw [copyLoop_cons_err hsrc' hdest' hcopy]
          exact copyLoop_fs_extends G kind root force rest fs

/-- The accumulator is a subsequence of the working name list, in order. -/
theorem copyLoop_sublist {kind : RKind} {root : Path} {force : Bool}
    {srcOf destOf : String → Path} {doCopy : FS → Path → Path → Res FS} :
    ∀ (ns : List String) (fs : FS),
      List.Sublist (copyLoop kind root force srcOf destOf doCopy ns fs).copied ns
  | [], fs => by
    rw [copyLoop_nil]
  | n :: rest, fs => by
    by_cases hsrc : existsSync fs (srcOf n) = false
    · rw [copyLoop_cons_missing hsrc]
      exact List.Sublist.cons n (copyLoop_sublist rest fs)
    · have hsrc' : existsSync fs (srcOf n) = true := by
        cases h : existsSync fs (srcOf n)
        · exact absurd h hsrc
        · rfl
      by_cases hdest : (existsSync fs (destOf n) && !force) = true
      · rw [copyLoop_cons_skip hsrc' hdest]
        exact List.Sublist.cons n (copyLoop_sublist rest fs)
      · have hdest' : (existsSync fs (destOf n) && !force) = false :=
          Bool.eq_false_iff.mpr hdest
        cases hcopy : doCopy fs (srcOf n) (destOf n) with
        | ok fs1 =>
          rw [copyLoop_cons_ok hsrc' hdest' hcopy]
          exact List.Sublist.cons₂ n (copyLoop_sublist rest fs1)
        | error =>
          rw [copyLoop_cons_err hsrc' hdest' hcopy]
          exact List.Sublist.cons n (copyLoop_sublist rest fs)

/-- With `force` unset, a loop in which every name skips returns an empty
accumulator and leaves the filesystem unchanged. -/
theorem copyLoop_skip_all {kind : RKind} {root : Path}
    {srcOf destOf : String → Path} {doCopy : FS → Path → Path → Res FS} :
    ∀ (ns : List String) (fs : FS),
      (∀ n ∈ ns, skipsName srcOf destOf doCopy fs n = true) →
      ∃ log, copyLoop kind root false srcOf destOf doCopy ns fs = ⟨[], fs, log⟩
  | [], fs, _ => ⟨[], copyLoop_nil⟩
  | n :: rest, fs, h => by
    obtain ⟨log, ih⟩ := copyLoop_skip_all rest fs
      (fun m hm => h m (List.mem_cons_of_mem n hm))
    have hn := h n (List.mem_cons_self n rest)
    rw [skipsName] at hn
    by_cases hsrc : existsSync fs (srcOf n) = false
    · rw [copyLoop_cons_missing hsrc, ih]
      exact ⟨_, rfl⟩
    · have hsrc' : existsSync fs (srcOf n) = true := by
        cases hx : existsSync fs (srcOf n)
        · exact absurd hx hsrc
        · rfl
      by_cases hdest : existsSync fs (destOf n) = true
      · have hcond : (existsSync fs (destOf n) && !false) = true := by
          rw [hdest]
          rfl
        rw [copyLoop_cons_skip hsrc' hcond, ih]
        exact ⟨_, rfl⟩
      · have hdest' : existsSync fs (destOf n) = false := by
          cases hx : existsSync fs (destOf n)
          · rfl
          · exact absurd hx hdest
        have herr : (doCopy fs (srcOf n) (destOf n)).isError = true := by
          rw [hsrc', hdest'] at hn
          simpa using hn
        have hcond : (existsSync fs (destOf n) && !false) = false := by
          rw [hdest']
          rfl
        rw [copyLoop_cons_err hsrc' hcond (isError_eq.mp herr), ih]
        exact ⟨_, rfl⟩

/-- After one run of the loop with `force` unset, every name of the list
skips: what was copied now has an existing destination, what was missing is
still missing, and what failed to copy still fails. -/
theorem copyLoop_establishes {tgt : Path} {srcOf destOf : String → Path}
    {doCopy : FS → Path → Path → Res FS} {kind : RKind} {root : Path}
    (G : CopyGood tgt srcOf destOf doCopy) :
    ∀ (ns : List String) (fs : FS),
      (∀ n ∈ ns, touches (srcOf n) tgt = false) →
      (∀ n ∈ ns, CreatesDest srcOf destOf doCopy n) →
      ∀ n ∈ ns, skipsName srcOf destOf doCopy
        (copyLoop kind root false srcOf destOf doCopy ns fs).fs n = true
  | [], _, _, _ => by
    intro n hn
    exact absurd hn (List.not_mem_nil n)
  | m :: rest, fs, htouch, hcreates => by
    intro n hn
    have htouch' : ∀ k ∈ rest, touches (srcOf k) tgt = false :=
      fun k hk => htouch k (List.mem_cons_of_mem m hk)
    have hcreates' : ∀ k ∈ rest, CreatesDest srcOf destOf doCopy k :=
      fun k hk => hcreates k (List.mem_cons_of_mem m hk)
    by_cases hsrc : existsSync fs (srcOf m) = false
    · rw [copyLoop_cons_missing hsrc]
      rcases List.mem_cons.mp hn with rfl | hn'
      · have hfr := (copyLoop_fs_extends G kind root false rest fs).frameEx (srcOf n)
          (htouch n (List.mem_cons_self n rest))
        rw [skipsName, hfr, hsrc]
        rfl
      · exact copyLoop_establishes G rest fs htouch' hcreates' n hn'
    · have hsrc' : existsSync fs (srcOf m) = true := by
        cases hx : existsSync fs (srcOf m)
        · exact absurd hx hsrc
        · rfl
      by_cases hdest : existsSync fs (destOf m) = true
      · have hcond : (existsSync fs (destOf m) && !false) = true := by
          rw [hdest]
          rfl
        rw [copyLoop_cons_skip hsrc' hcond]
        rcases List.mem_cons.mp hn with rfl | hn'
        · have := (copyLoop_fs_extends G kind root false rest fs).mono (destOf n) hdest
          rw [skipsName, this]
          simp
        · exact copyLoop_establishes G rest fs htouch' hcreates' n hn'
      · have hdest' : existsSync fs (destOf m) = false := by
          cases hx : existsSync fs (destOf m)
          · rfl
          · exact absurd hx hdest
        have hcond : (existsSync fs (destOf m) && !false) = false := by
          rw [hdest']
          rfl
        cases hcopy : doCopy fs (srcOf m) (destOf m) with
        | ok fs1 =>
          rw [copyLoop_cons_ok hsrc' hcond hcopy]
          rcases List.mem_cons.mp hn with rfl | hn'
          · have hd1 := hcreates n (List.mem_cons_self n rest) fs fs1 hcopy
            have := (copyLoop_fs_extends G kind root false rest fs1).mono (destOf n) hd1
            rw [skipsName, this]
            simp
          · exact copyLoop_establishes G rest fs1 htouch' hcreates' n hn'
        | error =>
          rw [copyLoop_cons_err hsrc' hcond hcopy]
          rcases List.mem_cons.mp hn with rfl | hn'
          · have herr := G.errStable fs _ n (copyLoop_fs_extends G kind root false rest fs)
              (htouch n (List.mem_cons_self n rest)) hcopy
            rw [skipsName, herr]
            simp [Res.isError]
          · exact copyLoop_establishes G rest fs htouch' hcreates' n hn'

/-- A name whose source is missing is never in the accumulator. -/
theorem copyLoop_not_copied {tgt : Path} {srcOf destOf : String → Path}
    {doCopy : FS → Path → Path → Res FS} {kind : RKind} {root : Path} {force : Bool}
    (G : CopyGood tgt srcOf destOf doCopy) :
    ∀ (ns : List String) (fs : FS) (n : String),
      touches (srcOf n) tgt = false →
      existsSync fs (srcOf n) = false →
      n ∉ (copyLoop kind root force srcOf destOf doCopy ns fs).copied
  | [], fs, n => by
    rw [copyLoop_nil]
    intro _ _ hmem
    exact absurd hmem (List.not_mem_nil n)
  | m :: rest, fs, n => by
    intro htouch hmiss
    by_cases hsrc : existsSync fs (srcOf m) = false
    · rw [copyLoop_cons_missing hsrc]
      exact copyLoop_not_copied G rest fs n htouch hmiss
    · have hsrc' : existsSync fs (srcOf m) = true := by
        cases hx : existsSync fs (srcOf m)
        · exact absurd hx hsrc
        · rfl
      by_cases hdest : (existsSync fs (destOf m) && !force) = true
      · rw [copyLoop_cons_skip hsrc' hdest]
        exact copyLoop_not_copied G rest fs n htouch hmiss
      · have hdest' : (existsSync fs (destOf m) && !force) = false :=
          Bool.eq_false_iff.mpr hdest
        cases hcopy : doCopy fs (srcOf m) (destOf m) with
        | ok fs1 =>
          rw [copyLoop_cons_ok hsrc' hdest' hcopy]
          intro hmem
          rcases List.mem_cons.mp hmem with rfl | hmem'
          · rw [hsrc'] at hmiss
            exact Bool.noConfusion hmiss
          · have hmiss1 : existsSync fs1 (srcOf n) = false := by
              rw [(G.ext fs m fs1 hcopy).frameEx (srcOf n) htouch]
              exact hmiss
            exact copyLoop_not_copied G rest fs1 n htouch hmiss1 hmem'
        | error =>
          rw [copyLoop_cons_err hsrc' hdest' hcopy]
          exact copyLoop_not_copied G rest fs n htouch hmiss

/-- A requested name whose source is missing produces a warning naming the
attempted source path (and the repository root). -/
theorem copyLoop_warn {tgt : Path} {srcOf destOf : String → Path}
    {doCopy : FS → Path → Path → Res FS} {kind : RKind} {root : Path} {force : Bool}
    (G : CopyGood tgt srcOf destOf doCopy) :
    ∀ (ns : List String) (fs : FS) (n : String),
      touches (srcOf n) tgt = false →
      existsSync fs (srcOf n) = false →
      n ∈ ns →
      LogEntry.notFound kind n (srcOf n) root ∈
        (copyLoop kind root force srcOf destOf doCopy ns fs).log
  | [], _, n => by
    intro _ _ hn
    exact absurd hn (List.not_mem_nil n)
  | m :: rest, fs, n => by
    intro htouch hmiss hn
    rcases List.mem_cons.mp hn with rfl | hn'
    · rw [copyLoop_cons_missing hmiss]
      exact List.mem_cons_self _ _
    · by_cases hsrc : existsSync fs (srcOf m) = false
      · rw [copyLoop_cons_missing hsrc]
        exact List.mem_cons_of_mem _ (copyLoop_warn G rest fs n htouch hmiss hn')
      · have hsrc' : existsSync fs (srcOf m) = true := by
          cases hx : existsSync fs (srcOf m)
          · exact absurd hx hsrc
          · rfl
        by_cases hdest : (existsSync fs (destOf m) && !force) = true
        · rw [copyLoop_cons_skip hsrc' hdest]
          exact List.mem_cons_of_mem _ (copyLoop_warn G rest fs n htouch hmiss hn')
        · have hdest' : (existsSync fs (destOf m) && !force) = false :=
            Bool.eq_false_iff.mpr hdest
          cases hcopy : doCopy fs (srcOf m) (destOf m) with
          | ok fs1 =>
            rw [copyLoop_cons_ok hsrc' hdest' hcopy]
            have hmiss1 : existsSync fs1 (srcOf n) = false := by
              rw [(G.ext fs m fs1 hcopy).frameEx (srcOf n) htouch]
              exact hmiss
            exact copyLoop_warn G rest fs1 n htouch hmiss1 hn'
          | error =>
            rw [copyLoop_cons_err hsrc' hdest' hcopy]
            exact List.mem_cons_of_mem _ (copyLoop_warn G rest fs n htouch hmiss hn')

/-! ## Unfolding equations for the full copy calls -/

theorem copySkills_eq {repoRoot : Path} {errPaths : List Path} {aiType : AITypeC}
    {targetDir : Path} {skillNames : Option (List String)} {force : Bool} {fs : FS} :
    copySkills repoRoot errPaths aiType targetDir skillNames force fs =
      (match mkdirRec errPaths fs (targetDir ++ SKILLS_MAPPING aiType) with
      | .error => ⟨.error, fs, []⟩
      | .ok fs1 =>
        ⟨.ok (copyLoop .skill repoRoot force (skillSrc repoRoot)
            (skillDest (targetDir ++ SKILLS_MAPPING aiType)) (cpDir errPaths force)
            (skillNames.getD AVAILABLE_SKILLS) fs1).copied,
         (copyLoop .skill repoRoot force (skillSrc repoRoot)
            (skillDest (targetDir ++ SKILLS_MAPPING aiType)) (cpDir errPaths force)
            (skillNames.getD AVAILABLE_SKILLS) fs1).fs,
         (copyLoop .skill repoRoot force (skillSrc repoRoot)
            (skillDest (targetDir ++ SKILLS_MAPPING aiType)) (cpDir errPaths force)
            (skillNames.getD AVAILABLE_SKILLS) fs1).log⟩) := rfl

theorem copySkills_ok {repoRoot : Path} {errPaths : List Path} {aiType : AITypeC}
    {targetDir : Path} {skillNames : Option (List String)} {force : Bool} {fs fs1 : FS}
    (hmk : mkdirRec errPaths fs (targetDir ++ SKILLS_MAPPING aiType) = .ok fs1) :
    copySkills repoRoot errPaths aiType targetDir skillNames force fs =
      ⟨.ok (copyLoop .skill repoRoot force (skillSrc repoRoot)
          (skillDest (targetDir ++ SKILLS_MAPPING aiType)) (cpDir errPaths force)
          (skillNames.getD AVAILABLE_SKILLS) fs1).copied,
       (copyLoop .skill repoRoot force (skillSrc repoRoot)
          (skillDest (targetDir ++ SKILLS_MAPPING aiType)) (cpDir errPaths force)
          (skillNames.getD AVAILABLE_SKILLS) fs1).fs,
       (copyLoop .skill repoRoot force (skillSrc repoRoot)
          (skillDest (targetDir ++ SKILLS_MAPPING aiType)) (cpDir errPaths force)
          (skillNames.getD AVAILABLE_SKILLS) fs1).log⟩ := by
  rw [copySkills_eq, hmk]

theorem copySkills_err {repoRoot : Path} {errPaths : List Path} {aiType : AITypeC}
    {targetDir : Path} {skillNames : Option (List String)} {force : Bool} {fs : FS}
    (hmk : mkdirRec errPaths fs (targetDir ++ SKILLS_MAPPING aiType) = .error) :
    copySkills repoRoot errPaths aiType targetDir skillNames force fs = ⟨.error, fs, []⟩ := by
  rw [copySkills_eq, hmk]

theorem copyRules_eq {repoRoot : Path} {errPaths : List Path} {aiType : AITypeC}
    {targetDir : Path} {ruleNames : Option (List String)} {force : Bool} {fs : FS} :
    copyRules repoRoot errPaths aiType targetDir ruleNames force fs =
      (match mkdirRec errPaths fs (targetDir ++ RULES_MAPPING aiType) with
      | .error => ⟨.error, fs, []⟩
      | .ok fs1 =>
        ⟨.ok (copyLoop .rule repoRoot force (ruleSrc repoRoot)
            (ruleDest (targetDir ++ RULES_MAPPING aiType)) (cpFile errPaths force)
            (ruleNames.getD AVAILABLE_RULES) fs1).copied,
         (copyLoop .rule repoRoot force (ruleSrc repoRoot)
            (ruleDest (targetDir ++ RULES_MAPPING aiType)) (cpFile errPaths force)
            (ruleNames.getD AVAILABLE_RULES) fs1).fs,
         (copyLoop .rule repoRoot force (ruleSrc repoRoot)
            (ruleDest (targetDir ++ RULES_MAPPING aiType)) (cpFile errPaths force)
            (ruleNames.getD AVAILABLE_RULES) fs1).log⟩) := rfl

theorem copyRules_ok {repoRoot : Path} {errPaths : List Path} {aiType : AITypeC}
    {targetDir : Path} {ruleNames : Option (List String)} {force : Bool} {fs fs1 : FS}
    (hmk : mkdirRec errPaths fs (targetDir ++ RULES_MAPPING aiType) = .ok fs1) :
    copyRules repoRoot errPaths aiType targetDir ruleNames force fs =
      ⟨.ok (copyLoop .rule repoRoot force (ruleSrc repoRoot)
          (ruleDest (targetDir ++ RULES_MAPPING aiType)) (cpFile errPaths force)
          (ruleNames.getD AVAILABLE_RULES) fs1).copied,
       (copyLoop .rule repoRoot force (ruleSrc repoRoot)
          (ruleDest (targetDir ++ RULES_MAPPING aiType)) (cpFile errPaths force)
          (ruleNames.getD AVAILABLE_RULES) fs1).fs,
       (copyLoop .rule repoRoot force (ruleSrc repoRoot)
          (ruleDest (targetDir ++ RULES_MAPPING aiType)) (cpFile errPaths force)
          (ruleNames.getD AVAILABLE_RULES) fs1).log⟩ := by
  rw [copyRules_eq, hmk]

theorem copyRules_err {repoRoot : Path} {errPaths : List Path} {aiType : AITypeC}
    {targetDir : Path} {ruleNames : Option (List String)} {force : Bool} {fs : FS}
    (hmk : mkdirRec errPaths fs (targetDir ++ RULES_MAPPING aiType) = .error) :
    copyRules repoRoot errPaths aiType targetDir ruleNames force fs = ⟨.error, fs, []⟩ := by
  rw [copyRules_eq, hmk]

/-- After a successful `mkdir` + loop pass with `force` unset, the second
pass is a no-op: its `mkdir` finds everything in place and every name
skips. -/
theorem mkdir_loop_idem {tgt : Path} {srcOf destOf : String → Path}
    {doCopy : FS → Path → Path → Res FS} (G : CopyGood tgt srcOf destOf doCopy)
    (kind : RKind) (root : Path) {errPaths : List Path} {fs0 fsm : FS} (ns : List String)
    (htouch : ∀ n ∈ ns, touches (srcOf n) tgt = false)
    (hcreates : ∀ n ∈ ns, CreatesDest srcOf destOf doCopy n)
    (hmk : mkdirRec errPaths fs0 tgt = .ok fsm) :
    mkdirRec errPaths (copyLoop kind root false srcOf destOf doCopy ns fsm).fs tgt
        = .ok (copyLoop kind root false srcOf destOf doCopy ns fsm).fs ∧
    ∃ log, copyLoop kind root false srcOf destOf doCopy ns
        (copyLoop kind root false srcOf destOf doCopy ns fsm).fs
      = ⟨[], (copyLoop kind root false srcOf destOf doCopy ns fsm).fs, log⟩ := by
  constructor
  · apply mkdirRec_noop
    intro q hq hne
    exact (copyLoop_fs_extends G kind root false ns fsm).mono q
      (mkdirRec_ok_covers hmk q hq hne)
  · exact copyLoop_skip_all ns _ (copyLoop_establishes G ns fsm htouch hcreates)

/-- C1 (amended): invoking `copySkills` (or `copyRules`) a second time with
the same arguments and `force = false` returns an empty list from the
second call — no resource whose destination was created by the first call
is copied again — and the filesystem (hence the content installed by the
first call) is left unchanged.  The disjointness hypotheses state that the
catalog's source paths do not lie on or under the install target subtree,
the spec's invariant that resource names resolve against the catalog root
and never against the install target.  The amendment is `hfilterS`: no
requested skill's source path may match the copy filter's exclusion
patterns (`node_modules`, `.DS_Store`, `*.local.json`), for otherwise
`fs.cp` copies nothing and creates no destination while the name is still
recorded as copied, and the second call repeats the copy
(see `c1_counterexample`). -/
theorem c1_second_call_copies_nothing
    (repoRoot : Path) (errPaths : List Path) (aiType : AITypeC) (targetDir : Path)
    (skillNames ruleNames : Option (List String)) (fs0 gs0 : FS)
    (r1 : List String) (fs1 : FS) (log1 : List LogEntry)
    (r2 : List String) (gs1 : FS) (log2 : List LogEntry)
    (hdisjS : ∀ n ∈ skillNames.getD AVAILABLE_SKILLS,
      touches (skillSrc repoRoot n) (targetDir ++ SKILLS_MAPPING aiType) = false)
    (hdisjR : ∀ n ∈ ruleNames.getD AVAILABLE_RULES,
      touches (ruleSrc repoRoot n) (targetDir ++ RULES_MAPPING aiType) = false)
    (hfilterS : ∀ n ∈ skillNames.getD AVAILABLE_SKILLS,
      cpFilter (skillSrc repoRoot n) = true)
    (h1 : copySkills repoRoot errPaths aiType targetDir skillNames false fs0
        = ⟨.ok r1, fs1, log1⟩)
    (h2 : copyRules repoRoot errPaths aiType targetDir ruleNames false gs0
        = ⟨.ok r2, gs1, log2⟩) :
    (∃ logS, copySkills repoRoot errPaths aiType targetDir skillNames false fs1
        = ⟨.ok [], fs1, logS⟩) ∧
    (∃ logR, copyRules repoRoot errPaths aiType targetDir ruleNames false gs1
        = ⟨.ok [], gs1, logR⟩) := by
  constructor
  · cases hmk : mkdirRec errPaths fs0 (targetDir ++ SKILLS_MAPPING aiType) with
    | error =>
      rw [copySkills_err hmk] at h1
      cases h1
    | ok fsm =>
      rw [copySkills_ok hmk] at h1
      cases h1
      obtain ⟨hnoop, log, hloop⟩ :=
        mkdir_loop_idem (copyGood_cpDir errPaths false repoRoot _) .skill repoRoot
          (skillNames.getD AVAILABLE_SKILLS) hdisjS
          (fun n hn => createsDest_cpDir errPaths false repoRoot _ n (hfilterS n hn)) hmk
      refine ⟨log, ?_⟩
      rw [copySkills_ok hnoop, hloop]
  · cases hmk : mkdirRec errPaths gs0 (targetDir ++ RULES_MAPPING aiType) with
    | error =>
      rw [copyRules_err hmk] at h2
      cases h2
    | ok gsm =>
      rw [copyRules_ok hmk] at h2
      cases h2
      obtain ⟨hnoop, log, hloop⟩ :=
        mkdir_loop_idem (copyGood_cpFile errPaths false repoRoot _) .rule repoRoot
          (ruleNames.getD AVAILABLE_RULES) hdisjR
          (fun n _ => createsDest_cpFile errPaths false repoRoot _ n) hmk
      refine ⟨log, ?_⟩
      rw [copyRules_ok hnoop, hloop]

/-- C1 counterexample (refuting the claim as originally stated): for a
catalog rooted under a `node_modules` directory the exclusion filter
rejects the skill's source root, so `fs.cp` resolves without copying
anything and without creating the destination — yet the name is still
recorded as copied — and a second `force = false` call, finding no
destination, runs the whole copy again and returns the same non-empty
list instead of the empty one. -/
theorem c1_counterexample :
    (copySkills ["node_modules", "repo"] [] AITypeC.claude ["proj"] (some ["schema"]) false
        nmCatalogFS).result = .ok ["schema"] ∧
    (copySkills ["node_modules", "repo"] [] AITypeC.claude ["proj"] (some ["schema"]) false
        (copySkills ["node_modules", "repo"] [] AITypeC.claude ["proj"] (some ["schema"]) false
          nmCatalogFS).fs).result = .ok ["schema"] := by
  constructor
  · decide
  · decide

/-- C4: `copySkills` and `copyRules` return the successfully copied names
as a subsequence of the resolved working name list — the explicit names
argument when given, else the full catalog listing for the kind — in that
list's order, skipped and failed items simply absent. -/
theorem c4_result_is_sublist_of_working_list
    (repoRoot : Path) (errPaths : List Path) (aiType : AITypeC) (targetDir : Path)
    (names : Option (List String)) (force : Bool) (fs : FS)
    (r : List String) (fsOut : FS) (logOut : List LogEntry) :
    (copySkills repoRoot errPaths aiType targetDir names force fs = ⟨.ok r, fsOut, logOut⟩ →
      List.Sublist r (names.getD AVAILABLE_SKILLS)) ∧
    (copyRules repoRoot errPaths aiType targetDir names force fs = ⟨.ok r, fsOut, logOut⟩ →
      List.Sublist r (names.getD AVAILABLE_RULES)) := by
  constructor
  · intro h1
    cases hmk : mkdirRec errPaths fs (targetDir ++ SKILLS_MAPPING aiType) with
    | error =>
      rw [copySkills_err hmk] at h1
      cases h1
    | ok fsm =>
      rw [copySkills_ok hmk] at h1
      cases h1
      exact copyLoop_sublist _ _
  · intro h2
    cases hmk : mkdirRec errPaths fs (targetDir ++ RULES_MAPPING aiType) with
    | error =>
      rw [copyRules_err hmk] at h2
      cases h2
    | ok fsm =>
      rw [copyRules_ok hmk] at h2
      cases h2
      exact copyLoop_sublist _ _

/-! ## Force semantics -/

/-- C3: a requested name whose source path does not exist is skipped with a
warning naming the attempted path (and the repository root), is absent from
the returned list, and the loop continues with the remaining names of the
batch — the missing source never raises an exception. -/
theorem c3_missing_source_is_skipped_with_warning
    (repoRoot : Path) (errPaths : List Path) (aiType : AITypeC) (targetDir : Path)
    (skillNames ruleNames : Option (List String)) (force : Bool) (fs0 gs0 : FS)
    (nS nR : String)
    (hdisjS : ∀ n ∈ skillNames.getD AVAILABLE_SKILLS,
      touches (skillSrc repoRoot n) (targetDir ++ SKILLS_MAPPING aiType) = false)
    (hdisjR : ∀ n ∈ ruleNames.getD AVAILABLE_RULES,
      touches (ruleSrc repoRoot n) (targetDir ++ RULES_MAPPING aiType) = false)
    (hnS : nS ∈ skillNames.getD AVAILABLE_SKILLS)
    (hmissS : existsSync fs0 (skillSrc repoRoot nS) = false)
    (hnR : nR ∈ ruleNames.getD AVAILABLE_RULES)
    (hmissR : existsSync gs0 (ruleSrc repoRoot nR) = false)
    (r1 : List String) (fs1 : FS) (log1 : List LogEntry)
    (r2 : List String) (gs1 : FS) (log2 : List LogEntry)
    (h1 : copySkills repoRoot errPaths aiType targetDir skillNames force fs0
        = ⟨.ok r1, fs1, log1⟩)
    (h2 : copyRules repoRoot errPaths aiType targetDir ruleNames force gs0
        = ⟨.ok r2, gs1, log2⟩) :
    (nS ∉ r1 ∧ LogEntry.notFound .skill nS (skillSrc repoRoot nS) repoRoot ∈ log1) ∧
    (nR ∉ r2 ∧ LogEntry.notFound .rule nR (ruleSrc repoRoot nR) repoRoot ∈ log2) ∧
    (∀ (rest : List String) (fs : FS), existsSync fs (skillSrc repoRoot nS) = false →
      copyLoop .skill repoRoot force (skillSrc repoRoot)
          (skillDest (targetDir ++ SKILLS_MAPPING aiType)) (cpDir errPaths force)
          (nS :: rest) fs
        = ⟨(copyLoop .skill repoRoot force (skillSrc repoRoot)
              (skillDest (targetDir ++ SKILLS_MAPPING aiType)) (cpDir errPaths force)
              rest fs).copied,
           (copyLoop .skill repoRoot force (skillSrc repoRoot)
              (skillDest (targetDir ++ SKILLS_MAPPING aiType)) (cpDir errPaths force)
              rest fs).fs,
           .notFound .skill nS (skillSrc repoRoot nS) repoRoot ::
             (copyLoop .skill repoRoot force (skillSrc repoRoot)
                (skillDest (targetDir ++ SKILLS_MAPPING aiType)) (cpDir errPaths force)
                rest fs).log⟩) := by
  refine ⟨?_, ?_, fun rest fs h => copyLoop_cons_missing h⟩
  · cases hmk : mkdirRec errPaths fs0 (targetDir ++ SKILLS_MAPPING aiType) with
    | error =>
      rw [copySkills_err hmk] at h1
      cases h1
    | ok fsm =>
      rw [copySkills_ok hmk] at h1
      cases h1
      have G := copyGood_cpDir errPaths force repoRoot (targetDir ++ SKILLS_MAPPING aiType)
      have hmiss' : existsSync fsm (skillSrc repoRoot nS) = false := by
        rw [(mkdirRec_ok_extendsWithin hmk).frameEx (skillSrc repoRoot nS) (hdisjS nS hnS)]
        exact hmissS
      exact ⟨copyLoop_not_copied G _ fsm nS (hdisjS nS hnS) hmiss',
        copyLoop_warn G _ fsm nS (hdisjS nS hnS) hmiss' hnS⟩
  · cases hmk : mkdirRec errPaths gs0 (targetDir ++ RULES_MAPPING aiType) with
    | error =>
      rw [copyRules_err hmk] at h2
      cases h2
    | ok gsm =>
      rw [copyRules_ok hmk] at h2
      cases h2
      have G := copyGood_cpFile errPaths force repoRoot (targetDir ++ RULES_MAPPING aiType)
      have hmiss' : existsSync gsm (ruleSrc repoRoot nR) = false := by
        rw [(mkdirRec_ok_extendsWithin hmk).frameEx (ruleSrc repoRoot nR) (hdisjR nR hnR)]
        exact hmissR
      exact ⟨copyLoop_not_copied G _ gsm nR (hdisjR nR hnR) hmiss',
        copyLoop_warn G _ gsm nR (hdisjR nR hnR) hmiss' hnR⟩

/-- C10: an explicit empty names array copies nothing and returns the empty
list — the fallback to the full catalog listing happens only for an absent
names argument, not for an empty list — yet the call still creates the
destination subdirectory for the (assistant, kind) pair. -/
theorem c10_empty_names_copies_nothing_but_creates_directory
    (repoRoot : Path) (errPaths : List Path) (aiType : AITypeC) (targetDir : Path)
    (force : Bool) (fs fsm fsr : FS)
    (hmkS : mkdirRec errPaths fs (targetDir ++ SKILLS_MAPPING aiType) = .ok fsm)
    (hmkR : mkdirRec errPaths fs (targetDir ++ RULES_MAPPING aiType) = .ok fsr) :
    copySkills repoRoot errPaths aiType targetDir (some []) force fs = ⟨.ok [], fsm, []⟩ ∧
    existsSync fsm (targetDir ++ SKILLS_MAPPING aiType) = true ∧
    copyRules repoRoot errPaths aiType targetDir (some []) force fs = ⟨.ok [], fsr, []⟩ ∧
    existsSync fsr (targetDir ++ RULES_MAPPING aiType) = true ∧
    (some ([] : List String)).getD AVAILABLE_SKILLS = [] ∧
    (none : Option (List String)).getD AVAILABLE_SKILLS = AVAILABLE_SKILLS ∧
    (none : Option (List String)).getD AVAILABLE_RULES = AVAILABLE_RULES := by
  refine ⟨?_, ?_, ?_, ?_, rfl, rfl, rfl⟩
  · rw [copySkills_ok hmkS]
    rfl
  · apply mkdirRec_ok_covers hmkS _ (List.prefix_refl _)
    intro hc
    simp [SKILLS_MAPPING] at hc
  · rw [copyRules_ok hmkR]
    rfl
  · apply mkdirRec_ok_covers hmkR _ (List.prefix_refl _)
    intro hc
    simp [RULES_MAPPING] at hc

/-- C9: from a fresh empty target, `installResources` for one assistant
with resource type `skill`, names `['schema']` and `force = false` returns
`{skills: ['schema'], rules: []}`, creates `proj/.claude/skills/schema`,
and the rules destination `proj/.claude/rules` stays absent. -/
theorem c9_fresh_skill_only_install_scenario :
    (installResources ["repo"] [] .claude .skill ["proj"] (some ["schema"]) none false
        fsC9).result = .ok (["schema"], []) ∧
    existsSync (installResources ["repo"] [] .claude .skill ["proj"] (some ["schema"]) none false
        fsC9).fs ["proj", ".claude", "skills", "schema"] = true ∧
    existsSync (installResources ["repo"] [] .claude .skill ["proj"] (some ["schema"]) none false
        fsC9).fs ["proj", ".claude", "rules"] = false := by
  decide

/-- The suggestion if-chain of `detectAIType`, as a case analysis on the
detected list. -/
theorem suggestedOf_cases (l : List AIType) :
    (if l.length == 1 then l.head? else if 1 < l.length then some AIType.all else none)
      = (match l with
         | [] => none
         | [a] => some a
         | _ :: _ :: _ => some AIType.all) := by
  match l with
  | [] => rfl
  | [a] => rfl
  | a :: b :: t =>
    have h1 : ((a :: b :: t).length == 1) = false := by simp
    have h2 : 1 < (a :: b :: t).length := by
      simp only [List.length_cons]
      omega
    rw [h1]
    rw [if_neg Bool.false_ne_true, if_pos h2]

/-- C7: zero marker directories suggest nothing, exactly one suggests that
assistant, two or more suggest `'all'`; and `'all'` itself never appears in
the detected list. -/
theorem c7_detector_suggestion_rule (fs : FS) (cwd : Path) :
    ((detectAIType fs cwd).suggested
      = (match (detectAIType fs cwd).detected with
         | [] => none
         | [a] => some a
         | _ :: _ :: _ => some AIType.all)) ∧
    AIType.all ∉ (detectAIType fs cwd).detected := by
  constructor
  · exact suggestedOf_cases _
  · intro hmem
    simp only [detectAIType, List.mem_map] at hmem
    obtain ⟨a, _, ha⟩ := hmem
    cases a <;> simp [AITypeC.toAIType] at ha

/-! ## The orchestrator loop -/

theorem installCommandLoop_nil {repoRoot : Path} {errPaths : List Path}
    {resourceType : ResourceType} {cwd : Path} {optSkills optRules : Option (List String)}
    {force : Bool} {fs : FS} :
    installCommandLoop repoRoot errPaths resourceType cwd optSkills optRules force [] fs
      = ([], fs) := rfl

theorem installCommandLoop_cons {repoRoot : Path} {errPaths : List Path}
    {resourceType : ResourceType} {cwd : Path} {optSkills optRules : Option (List String)}
    {force : Bool} {a : AITypeC} {rest : List AITypeC} {fs : FS} :
    installCommandLoop repoRoot errPaths resourceType cwd optSkills optRules force
        (a :: rest) fs =
      (⟨a, (installStep repoRoot errPaths resourceType cwd optSkills optRules force
          a fs).1⟩ ::
        (installCommandLoop repoRoot errPaths resourceType cwd optSkills optRules force rest
          (installStep repoRoot errPaths resourceType cwd optSkills optRules force
            a fs).2).1,
       (installCommandLoop repoRoot errPaths resourceType cwd optSkills optRules force rest
          (installStep repoRoot errPaths resourceType cwd optSkills optRules force
            a fs).2).2) := rfl

theorem installStepRun_err {out : InstallOutcome} (hr : out.result = .error) :
    installStepRun out = (.failure, out.fs) := by
  unfold installStepRun
  rw [hr]

theorem installStepRun_ok {out : InstallOutcome} {sk ru : List String}
    (hr : out.result = .ok (sk, ru)) :
    installStepRun out = (.success sk ru, out.fs) := by
  unfold installStepRun
  rw [hr]

theorem installStep_ensure_err {repoRoot : Path} {errPaths : List Path}
    {resourceType : ResourceType} {cwd : Path} {optSkills optRules : Option (List String)}
    {force : Bool} {a : AITypeC} {fs : FS}
    (he : ensureAIDirectory errPaths a cwd fs = .error) :
    installStep repoRoot errPaths resourceType cwd optSkills optRules force a fs
      = (.failure, fs) := by
  unfold installStep
  rw [he]

theorem installStep_ensure_ok {repoRoot : Path} {errPaths : List Path}
    {resourceType : ResourceType} {cwd : Path} {optSkills optRules : Option (List String)}
    {force : Bool} {a : AITypeC} {fs fs1 : FS} {p : Path}
    (he : ensureAIDirectory errPaths a cwd fs = .ok (p, fs1)) :
    installStep repoRoot errPaths resourceType cwd optSkills optRules force a fs
      = installStepRun (installResources repoRoot errPaths a resourceType cwd
          optSkills optRules force fs1) := by
  unfold installStep
  rw [he]

/-- Every assistant of the batch gets exactly one report, in order,
whatever succeeds or fails. -/
theorem installCommandLoop_map (repoRoot : Path) (errPaths : List Path)
    (resourceType : ResourceType) (cwd : Path) (optSkills optRules : Option (List String))
    (force : Bool) :
    ∀ (ais : List AITypeC) (fs : FS),
      ((installCommandLoop repoRoot errPaths resourceType cwd optSkills optRules force
        ais fs).1.map (·.aiType)) = ais
  | [], _ => rfl
  | a :: rest, fs => by
    rw [installCommandLoop_cons]
    simp only [List.map_cons]
    rw [installCommandLoop_map repoRoot errPaths resourceType cwd optSkills optRules force
      rest _]

/-- C8: in the orchestrator's per-assistant loop, a failure to ensure one
assistant's marker directory, or an exception surfaced from the copy
engine for that assistant, is caught at this layer, reported against that
assistant only, and the remaining assistants of the batch are still
processed (every assistant gets exactly one report, in order). -/
theorem c8_per_assistant_failure_isolation
    (repoRoot : Path) (errPaths : List Path) (resourceType : ResourceType)
    (cwd : Path) (optSkills optRules : Option (List String)) (force : Bool) :
    (∀ (ais : List AITypeC) (fs : FS),
      ((installCommandLoop repoRoot errPaths resourceType cwd optSkills optRules force
        ais fs).1.map (·.aiType)) = ais) ∧
    (∀ (a : AITypeC) (rest : List AITypeC) (fs : FS),
      ensureAIDirectory errPaths a cwd fs = .error →
      installCommandLoop repoRoot errPaths resourceType cwd optSkills optRules force
          (a :: rest) fs =
        (⟨a, .failure⟩ :: (installCommandLoop repoRoot errPaths resourceType cwd
            optSkills optRules force rest fs).1,
         (installCommandLoop repoRoot errPaths resourceType cwd
            optSkills optRules force rest fs).2)) ∧
    (∀ (a : AITypeC) (rest : List AITypeC) (fs fs1 : FS) (p : Path),
      ensureAIDirectory errPaths a cwd fs = .ok (p, fs1) →
      (installResources repoRoot errPaths a resourceType cwd
          optSkills optRules force fs1).result = .error →
      installCommandLoop repoRoot errPaths resourceType cwd optSkills optRules force
          (a :: rest) fs =
        (⟨a, .failure⟩ :: (installCommandLoop repoRoot errPaths resourceType cwd
            optSkills optRules force rest
            (installResources repoRoot errPaths a resourceType cwd
              optSkills optRules force fs1).fs).1,
         (installCommandLoop repoRoot errPaths resourceType cwd
            optSkills optRules force rest
            (installResources repoRoot errPaths a resourceType cwd
              optSkills optRules force fs1).fs).2)) := by
  refine ⟨installCommandLoop_map repoRoot errPaths resourceType cwd optSkills optRules force,
    ?_, ?_⟩
  · intro a rest fs he
    rw [installCommandLoop_cons, installStep_ensure_err he]
  · intro a rest fs fs1 p he hr
    rw [installCommandLoop_cons, installStep_ensure_ok he, installStepRun_err hr]

/-! ## Root locator -/

theorem locateRootAux_succ {marker : Path → Bool} {cur : Path} {fuel : Nat} :
    locateRootAux marker cur (fuel + 1) =
      (if marker cur then some cur
       else if cur.dropLast == cur then none
       else locateRootAux marker cur.dropLast fuel) := rfl

/-- If the nearest marked ancestor lies within the depth budget and no
directory strictly between it and the start is marked, the walk returns
exactly that ancestor. -/
theorem locateRootAux_finds (marker : Path → Bool) :
    ∀ (rest : List String) (m : Path) (fuel : Nat),
      rest.length < fuel →
      marker m = true →
      (∀ j, j < rest.length → marker (m ++ rest.take (j + 1)) = false) →
      locateRootAux marker (m ++ rest) fuel = some m := by
  intro rest
  induction rest using List.reverseRecOn with
  | nil =>
    intro m fuel hlen hm _
    cases fuel with
    | zero => exact absurd hlen (by omega)
    | succ f =>
      rw [List.append_nil, locateRootAux_succ, if_pos hm]
  | append_singleton rs x ih =>
    intro m fuel hlen hm hint
    cases fuel with
    | zero => exact absurd hlen (by omega)
    | succ f =>
      have hcur : marker (m ++ (rs ++ [x])) = false := by
        have := hint rs.length (by simp)
        rwa [show rs.length + 1 = (rs ++ [x]).length by simp, List.take_length] at this
      have hdrop : (m ++ (rs ++ [x])).dropLast = m ++ rs := by
        rw [← List.append_assoc]
        exact List.dropLast_concat
      have hne : ((m ++ rs : Path) == m ++ (rs ++ [x])) = false := by
        rw [beq_eq_false_iff_ne]
        intro hc
        have := congrArg List.length hc
        simp at this
      rw [locateRootAux_succ, if_neg (by rw [hcur]; exact Bool.false_ne_true), hdrop]
      rw [if_neg (by rw [hne]; exact Bool.false_ne_true)]
      apply ih m f
      · have := List.length_append rs [x]
        simp at hlen ⊢
        omega
      · exact hm
      · intro j hj
        have := hint j (by simp; omega)
        rwa [List.take_append_of_le_length (by omega)] at this

/-- If no directory the walk can reach is marked, the walk exhausts its
budget (or stops early at the filesystem root) and returns nothing. -/
theorem locateRootAux_none (marker : Path → Bool) :
    ∀ (fuel : Nat) (cur : Path),
      (∀ j, j < fuel → marker (iterDropLast j cur) = false) →
      locateRootAux marker cur fuel = none
  | 0, _, _ => rfl
  | fuel + 1, cur, h => by
    have h0 : marker cur = false := h 0 (Nat.succ_pos fuel)
    rw [locateRootAux_succ, if_neg (by rw [h0]; exact Bool.false_ne_true)]
    by_cases hpar : (cur.dropLast == cur) = true
    · rw [if_pos hpar]
    · rw [if_neg hpar]
      exact locateRootAux_none marker fuel cur.dropLast
        (fun j hj => h (j + 1) (Nat.succ_lt_succ hj))

/-- C5: the root locator checks the current directory for the markers and
returns the first (deepest) matching ancestor, ascending one parent at a
time up to the depth bound (10 for `findRepoRoot`, 5 for `findCliRoot`)
and stopping early at the filesystem root; when nothing within reach is
marked it returns two levels up from the start directory instead of
raising an error.  In particular a start directory nested `rest` levels
below a marker directory, with no intermediate directory marked, resolves
to that marker directory and not an intermediate one. -/
theorem c5_root_locator_walks_and_falls_back (fs : FS) :
    (∀ (m : Path) (rest : List String),
      hasRepoMarkers fs m = true →
      rest.length < 10 →
      (∀ j, j < rest.length → hasRepoMarkers fs (m ++ rest.take (j + 1)) = false) →
      findRepoRoot fs (m ++ rest) = m) ∧
    (∀ startDir : Path,
      (∀ j, j < 10 → hasRepoMarkers fs (iterDropLast j startDir) = false) →
      findRepoRoot fs startDir = startDir.dropLast.dropLast) ∧
    (∀ (m : Path) (rest : List String),
      hasCliMarker fs m = true →
      rest.length < 5 →
      (∀ j, j < rest.length → hasCliMarker fs (m ++ rest.take (j + 1)) = false) →
      findCliRoot fs (m ++ rest) = m) ∧
    (∀ startDir : Path,
      (∀ j, j < 5 → hasCliMarker fs (iterDropLast j startDir) = false) →
      findCliRoot fs startDir = startDir.dropLast.dropLast) := by
  refine ⟨?_, ?_, ?_, ?_⟩
  · intro m rest hm hlen hint
    rw [findRepoRoot, locateRootAux_finds (hasRepoMarkers fs) rest m 10 hlen hm hint]
    rfl
  · intro startDir h
    rw [findRepoRoot, locateRootAux_none (hasRepoMarkers fs) 10 startDir h]
    rfl
  · intro m rest hm hlen hint
    rw [findCliRoot, locateRootAux_finds (hasCliMarker fs) rest m 5 hlen hm hint]
    rfl
  · intro startDir h
    rw [findCliRoot, locateRootAux_none (hasCliMarker fs) 5 startDir h]
    rfl

/-! ## The dynamic catalog scan -/

theorem lexLe_total : ∀ a b : List Char, lexLe a b = true ∨ lexLe b a = true
  | [], _ => .inl rfl
  | _ :: _, [] => .inr rfl
  | a :: as, b :: bs => by
    simp only [lexLe]
    by_cases h1 : a.toNat < b.toNat
    · left
      rw [if_pos h1]
    · by_cases h2 : b.toNat < a.toNat
      · right
        rw [if_pos h2]
      · rcases lexLe_total as bs with h | h
        · left
          rw [if_neg h1, if_neg h2]
          exact h
        · right
          rw [if_neg h2, if_neg h1]
          exact h

theorem lexLe_trans : ∀ a b c : List Char,
    lexLe a b = true → lexLe b c = true → lexLe a c = true
  | [], _, _, _, _ => rfl
  | _ :: _, [], _, h1, _ => by simp [lexLe] at h1
  | _ :: _, _ :: _, [], _, h2 => by simp [lexLe] at h2
  | a :: as, b :: bs, c :: cs, h1, h2 => by
    simp only [lexLe] at h1 h2 ⊢
    by_cases hab : a.toNat < b.toNat <;> by_cases hbc : b.toNat < c.toNat
    · rw [if_pos (Nat.lt_trans hab hbc)]
    · rw [if_neg hbc] at h2
      by_cases hcb : c.toNat < b.toNat
      · rw [if_pos hcb] at h2
        exact Bool.noConfusion h2
      · rw [if_pos (by omega : a.toNat < c.toNat)]
    · rw [if_neg hab] at h1
      by_cases hba : b.toNat < a.toNat
      · rw [if_pos hba] at h1
        exact Bool.noConfusion h1
      · rw [if_pos (by omega : a.toNat < c.toNat)]
    · rw [if_neg hab] at h1
      rw [if_neg hbc] at h2
      by_cases hba : b.toNat < a.toNat
      · rw [if_pos hba] at h1
        exact Bool.noConfusion h1
      · by_cases hcb : c.toNat < b.toNat
        · rw [if_pos hcb] at h2
          exact Bool.noConfusion h2
        · rw [if_neg hba] at h1
          rw [if_neg hcb] at h2
          rw [if_neg (by omega : ¬ a.toNat < c.toNat),
            if_neg (by omega : ¬ c.toNat < a.toNat)]
          exact lexLe_trans as bs cs h1 h2

instance strLeIsTotal : IsTotal String (fun a b => strLe a b = true) :=
  ⟨fun a b => lexLe_total a.toList b.toList⟩

instance strLeIsTrans : IsTrans String (fun a b => strLe a b = true) :=
  ⟨fun a b c h1 h2 => lexLe_trans a.toList b.toList c.toList h1 h2⟩

theorem sortNames_sorted (l : List String) :
    List.Sorted (fun a b => strLe a b = true) (sortNames l) :=
  List.sorted_insertionSort _ l

theorem mem_sortNames {l : List String} {a : String} : a ∈ sortNames l ↔ a ∈ l :=
  (List.perm_insertionSort _ l).mem_iff

/-- Stripping the `.md` suffix and appending it back restores a name that
ends in `.md`. -/
theorem stripMd_append {c : String} (h : strEndsWith c ".md" = true) :
    stripMdSuffix c ++ ".md" = c := by
  rw [strEndsWith] at h
  have hsuf : (".md".toList : List Char) <:+ c.toList := by
    have := List.isSuffixOf_iff_suffix.mp h
    exact this
  obtain ⟨t, ht⟩ := hsuf
  have htl : (".md".toList : List Char) = ['.', 'm', 'd'] := rfl
  rw [htl] at ht
  have hlen : c.toList.length - 3 = t.length := by
    rw [← ht]
    simp
  rw [stripMdSuffix, hlen, ← ht, List.take_left]
  show String.mk (t ++ ['.', 'm', 'd']) = c
  rw [ht]
  rfl

/-- C6 counterexample: the rules scan does not exclude hidden entries —
a hidden `.hidden.md` file in the rules directory is returned (extension
stripped) as the name `.hidden`, which begins with `'.'`. -/
theorem c6_counterexample_rules_scan_keeps_hidden :
    (scanAvailableRules ["cli"] fsC6).1 = [".hidden"] ∧
    startsWithDot ".hidden" = true := by
  constructor
  · decide
  · decide

/-- C6 (amended): the dynamic catalog listing returns skill names
(subdirectories) and rule names (`.md` files, extension stripped) sorted
lexicographically; hidden entries are excluded from the skills listing
(the rules listing filters only by the `.md` extension); a missing scanned
directory degrades to an empty list plus a logged warning, with no thrown
fault. -/
theorem c6_dynamic_catalog_scan (cliRoot : Path) (fs : FS) :
    List.Sorted (fun a b => strLe a b = true) (scanAvailableSkills cliRoot fs).1 ∧
    List.Sorted (fun a b => strLe a b = true) (scanAvailableRules cliRoot fs).1 ∧
    (∀ c ∈ (scanAvailableSkills cliRoot fs).1,
      startsWithDot c = false ∧ fs.isDirAt (assetsSkillsDir cliRoot ++ [c]) = true) ∧
    (∀ r ∈ (scanAvailableRules cliRoot fs).1,
      fs.isFile (assetsRulesDir cliRoot ++ [r ++ ".md"]) = true) ∧
    (existsSync fs (assetsSkillsDir cliRoot) = false →
      scanAvailableSkills cliRoot fs
        = ([], [.scanMissing .skill (assetsSkillsDir cliRoot)])) ∧
    (existsSync fs (assetsRulesDir cliRoot) = false →
      scanAvailableRules cliRoot fs
        = ([], [.scanMissing .rule (assetsRulesDir cliRoot)])) := by
  refine ⟨?_, ?_, ?_, ?_, ?_, ?_⟩
  · rw [scanAvailableSkills]
    by_cases hex : existsSync fs (assetsSkillsDir cliRoot) = true
    · rw [if_neg (by rw [hex]; exact Bool.noConfusion)]
      exact sortNames_sorted _
    · rw [if_pos (by rw [Bool.eq_false_iff.mpr hex]; rfl)]
      exact List.sorted_nil
  · rw [scanAvailableRules]
    by_cases hex : existsSync fs (assetsRulesDir cliRoot) = true
    · rw [if_neg (by rw [hex]; exact Bool.noConfusion)]
      exact sortNames_sorted _
    · rw [if_pos (by rw [Bool.eq_false_iff.mpr hex]; rfl)]
      exact List.sorted_nil
  · intro c hc
    rw [scanAvailableSkills] at hc
    by_cases hex : existsSync fs (assetsSkillsDir cliRoot) = true
    · rw [if_neg (by rw [hex]; exact Bool.noConfusion)] at hc
      rw [mem_sortNames, List.mem_filter] at hc
      obtain ⟨_, hpred⟩ := hc
      rw [Bool.and_eq_true] at hpred
      exact ⟨by simpa using hpred.2, hpred.1⟩
    · rw [if_pos (by rw [Bool.eq_false_iff.mpr hex]; rfl)] at hc
      exact absurd hc (List.not_mem_nil c)
  · intro r hr
    rw [scanAvailableRules] at hr
    by_cases hex : existsSync fs (assetsRulesDir cliRoot) = true
    · rw [if_neg (by rw [hex]; exact Bool.noConfusion)] at hr
      rw [mem_sortNames, List.mem_map] at hr
      obtain ⟨c, hc, hstrip⟩ := hr
      rw [List.mem_filter, Bool.and_eq_true] at hc
      obtain ⟨_, hfile, hmd⟩ := hc
      rw [← hstrip, stripMd_append hmd]
      exact hfile
    · rw [if_pos (by rw [Bool.eq_false_iff.mpr hex]; rfl)] at hr
      exact absurd hr (List.not_mem_nil r)
  · intro hmiss
    rw [scanAvailableSkills, if_pos (by rw [hmiss]; rfl)]
  · intro hmiss
    rw [scanAvailableRules, if_pos (by rw [hmiss]; rfl)]

/-! ## Concrete fixtures and witnesses -/

theorem c1_witness :
    (∃ logS, copySkills ["repo"] [] AITypeC.claude ["proj"] (some ["schema"]) false
        (copySkills ["repo"] [] AITypeC.claude ["proj"] (some ["schema"]) false fsC9).fs
      = ⟨.ok [], (copySkills ["repo"] [] AITypeC.claude ["proj"] (some ["schema"]) false
          fsC9).fs, logS⟩) ∧
    (∃ logR, copyRules ["repo"] [] AITypeC.claude ["proj"] (some ["schema-rules"]) false
        (copyRules ["repo"] [] AITypeC.claude ["proj"] (some ["schema-rules"]) false
          rulesCatalogFS).fs
      = ⟨.ok [], (copyRules ["repo"] [] AITypeC.claude ["proj"] (some ["schema-rules"]) false
          rulesCatalogFS).fs, logR⟩) := by
  refine c1_second_call_copies_nothing ["repo"] [] AITypeC.claude ["proj"]
    (some ["schema"]) (some ["schema-rules"]) fsC9 rulesCatalogFS
    ["schema"]
    (copySkills ["repo"] [] AITypeC.claude ["proj"] (some ["schema"]) false fsC9).fs
    (copySkills ["repo"] [] AITypeC.claude ["proj"] (some ["schema"]) false fsC9).log
    ["schema-rules"]
    (copyRules ["repo"] [] AITypeC.claude ["proj"] (some ["schema-rules"]) false
      rulesCatalogFS).fs
    (copyRules ["repo"] [] AITypeC.claude ["proj"] (some ["schema-rules"]) false
      rulesCatalogFS).log
    (by decide) (by decide) (by decide) ?_ ?_
  · have hres : (copySkills ["repo"] [] AITypeC.claude ["proj"] (some ["schema"]) false
        fsC9).result = Res.ok ["schema"] := by decide
    rw [← hres]
  · have hres : (copyRules ["repo"] [] AITypeC.claude ["proj"] (some ["schema-rules"]) false
        rulesCatalogFS).result = Res.ok ["schema-rules"] := by decide
    rw [← hres]

theorem c3_witness :
    ("zz" ∉ ["schema"] ∧
      LogEntry.notFound .skill "zz" (skillSrc ["repo"] "zz") ["repo"] ∈
        (copySkills ["repo"] [] AITypeC.claude ["proj"] (some ["schema", "zz"]) false
          fsC9).log) ∧
    ("zz" ∉ ["schema-rules"] ∧
      LogEntry.notFound .rule "zz" (ruleSrc ["repo"] "zz") ["repo"] ∈
        (copyRules ["repo"] [] AITypeC.claude ["proj"] (some ["schema-rules", "zz"]) false
          rulesCatalogFS).log) := by
  have h := c3_missing_source_is_skipped_with_warning ["repo"] [] AITypeC.claude ["proj"]
    (some ["schema", "zz"]) (some ["schema-rules", "zz"]) false fsC9 rulesCatalogFS
    "zz" "zz" (by decide) (by decide) (by decide) (by decide) (by decide) (by decide)
    ["schema"]
    (copySkills ["repo"] [] AITypeC.claude ["proj"] (some ["schema", "zz"]) false fsC9).fs
    (copySkills ["repo"] [] AITypeC.claude ["proj"] (some ["schema", "zz"]) false fsC9).log
    ["schema-rules"]
    (copyRules ["repo"] [] AITypeC.claude ["proj"] (some ["schema-rules", "zz"]) false
      rulesCatalogFS).fs
    (copyRules ["repo"] [] AITypeC.claude ["proj"] (some ["schema-rules", "zz"]) false
      rulesCatalogFS).log
    (by
      have hres : (copySkills ["repo"] [] AITypeC.claude ["proj"] (some ["schema", "zz"])
          false fsC9).result = Res.ok ["schema"] := by decide
      rw [← hres])
    (by
      have hres : (copyRules ["repo"] [] AITypeC.claude ["proj"] (some ["schema-rules", "zz"])
          false rulesCatalogFS).result = Res.ok ["schema-rules"] := by decide
      rw [← hres])
  exact ⟨h.1, h.2.1⟩

theorem c4_witness :
    List.Sublist ["schema"] ["schema", "zz"] ∧
    List.Sublist ["schema-rules"] ["schema-rules", "zz"] := by
  constructor
  · apply (c4_result_is_sublist_of_working_list ["repo"] [] AITypeC.claude ["proj"]
      (some ["schema", "zz"]) false fsC9 ["schema"]
      (copySkills ["repo"] [] AITypeC.claude ["proj"] (some ["schema", "zz"]) false fsC9).fs
      (copySkills ["repo"] [] AITypeC.claude ["proj"] (some ["schema", "zz"]) false
        fsC9).log).1
    have hres : (copySkills ["repo"] [] AITypeC.claude ["proj"] (some ["schema", "zz"])
        false fsC9).result = Res.ok ["schema"] := by decide
    rw [← hres]
  · apply (c4_result_is_sublist_of_working_list ["repo"] [] AITypeC.claude ["proj"]
      (some ["schema-rules", "zz"]) false rulesCatalogFS ["schema-rules"]
      (copyRules ["repo"] [] AITypeC.claude ["proj"] (some ["schema-rules", "zz"]) false
        rulesCatalogFS).fs
      (copyRules ["repo"] [] AITypeC.claude ["proj"] (some ["schema-rules", "zz"]) false
        rulesCatalogFS).log).2
    have hres : (copyRules ["repo"] [] AITypeC.claude ["proj"] (some ["schema-rules", "zz"])
        false rulesCatalogFS).result = Res.ok ["schema-rules"] := by decide
    rw [← hres]

theorem c5_witness :
    findRepoRoot repoMarkersFS ["repo", "cli", "dist"] = ["repo"] ∧
    findRepoRoot emptyFS ["a", "b", "c"] = ["a"] ∧
    findCliRoot cliMarkerFS ["cli", "dist"] = ["cli"] ∧
    findCliRoot emptyFS ["a", "b", "c"] = ["a"] := by
  refine ⟨?_, ?_, ?_, ?_⟩
  · exact (c5_root_locator_walks_and_falls_back repoMarkersFS).1 ["repo"] ["cli", "dist"]
      (by decide) (by decide) (by decide)
  · exact ((c5_root_locator_walks_and_falls_back emptyFS).2.1 ["a", "b", "c"]
      (by decide)).trans (by decide)
  · exact (c5_root_locator_walks_and_falls_back cliMarkerFS).2.2.1 ["cli"] ["dist"]
      (by decide) (by decide) (by decide)
  · exact ((c5_root_locator_walks_and_falls_back emptyFS).2.2.2 ["a", "b", "c"]
      (by decide)).trans (by decide)

theorem c6_witness :
    scanAvailableSkills ["x"] emptyFS
      = ([], [.scanMissing .skill ["x", "assets", "skills"]]) ∧
    scanAvailableRules ["x"] emptyFS
      = ([], [.scanMissing .rule ["x", "assets", "rules"]]) ∧
    startsWithDot "a" = false ∧
    fsC6.isFile ["cli", "assets", "rules", ".hidden" ++ ".md"] = true := by
  exact ⟨(c6_dynamic_catalog_scan ["x"] emptyFS).2.2.2.2.1 (by decide),
         (c6_dynamic_catalog_scan ["x"] emptyFS).2.2.2.2.2 (by decide),
         ((c6_dynamic_catalog_scan ["cli"] fsC6b).2.2.1 "a" (by decide)).1,
         (c6_dynamic_catalog_scan ["cli"] fsC6).2.2.2.1 ".hidden" (by decide)⟩

theorem c7_witness :
    (detectAIType ⟨[], [["p", ".claude"]]⟩ ["p"]).suggested = some AIType.claude ∧
    AIType.all ∉ (detectAIType ⟨[], [["p", ".claude"], ["p", ".cursor"]]⟩ ["p"]).detected := by
  exact ⟨(c7_detector_suggestion_rule ⟨[], [["p", ".claude"]]⟩ ["p"]).1.trans (by decide),
         (c7_detector_suggestion_rule ⟨[], [["p", ".claude"], ["p", ".cursor"]]⟩ ["p"]).2⟩

theorem c8_witness :
    ((installCommandLoop ["repo"] [["proj", ".claude"]] .skill ["proj"] none none false
        [.claude, .cursor] emptyFS).1.map (·.aiType) = [.claude, .cursor]) ∧
    installCommandLoop ["repo"] [["proj", ".claude"]] .skill ["proj"] none none false
        [AITypeC.claude] emptyFS
      = (⟨.claude, .failure⟩ :: (installCommandLoop ["repo"] [["proj", ".claude"]] .skill
            ["proj"] none none false [] emptyFS).1,
         (installCommandLoop ["repo"] [["proj", ".claude"]] .skill
            ["proj"] none none false [] emptyFS).2) ∧
    installCommandLoop ["repo"] [["proj", ".claude", "skills"]] .skill ["proj"] none none false
        [AITypeC.claude] ⟨[], [["proj", ".claude"]]⟩
      = (⟨.claude, .failure⟩ :: (installCommandLoop ["repo"] [["proj", ".claude", "skills"]]
            .skill ["proj"] none none false []
            (installResources ["repo"] [["proj", ".claude", "skills"]] .claude .skill ["proj"]
              none none false ⟨[], [["proj", ".claude"]]⟩).fs).1,
         (installCommandLoop ["repo"] [["proj", ".claude", "skills"]]
            .skill ["proj"] none none false []
            (installResources ["repo"] [["proj", ".claude", "skills"]] .claude .skill ["proj"]
              none none false ⟨[], [["proj", ".claude"]]⟩).fs).2) := by
  refine ⟨(c8_per_assistant_failure_isolation ["repo"] [["proj", ".claude"]] .skill ["proj"]
      none none false).1 [.claude, .cursor] emptyFS,
    (c8_per_assistant_failure_isolation ["repo"] [["proj", ".claude"]] .skill ["proj"]
      none none false).2.1 .claude [] emptyFS (by decide),
    (c8_per_assistant_failure_isolation ["repo"] [["proj", ".claude", "skills"]] .skill
      ["proj"] none none false).2.2 .claude [] ⟨[], [["proj", ".claude"]]⟩
      ⟨[], [["proj", ".claude"]]⟩ ["proj", ".claude"] (by decide) (by decide)⟩

theorem c10_witness :
    copySkills ["repo"] [] AITypeC.claude ["proj"] (some []) false emptyFS
      = ⟨.ok [], ⟨[], [["proj"], ["proj", ".claude"], ["proj", ".claude", "skills"]]⟩, []⟩ ∧
    existsSync ⟨[], [["proj"], ["proj", ".claude"], ["proj", ".claude", "skills"]]⟩
      ["proj", ".claude", "skills"] = true := by
  have h := c10_empty_names_copies_nothing_but_creates_directory ["repo"] [] AITypeC.claude
    ["proj"] false emptyFS
    ⟨[], [["proj"], ["proj", ".claude"], ["proj", ".claude", "skills"]]⟩
    ⟨[], [["proj"], ["proj", ".claude"], ["proj", ".claude", "rules"]]⟩
    (by decide) (by decide)
  exact ⟨h.1, h.2.1⟩

end LeeforgeSchema
